import Mathlib

/-!
Verification of the formulary package manager core against its design
specification.  The Python sources under `src/formulary` are shallowly
embedded: strings become `List Char`, dicts become ordered association
lists (Python dicts preserve insertion order), sets used only for
membership become lists, and exceptions become `Except`/`Option` values.
-/

namespace Formulary

/-! ## Tokenizer (`refactoring/tokenizer.py`) -/

/-- `TokenType` enum from `tokenizer.py`. -/
inductive TokenType where
  | IDENTIFIER
  | STRING
  | NUMBER
  | OPERATOR
  | LPAREN
  | RPAREN
  | LBRACKET
  | RBRACKET
  | LBRACE
  | RBRACE
  | COMMA
  | SEMICOLON
  | WHITESPACE
  | UNKNOWN
  deriving DecidableEq, Repr

/-- `Token` named tuple: `(type, value, start, end)`; the field `end` is a Lean
keyword, so it is called `stop` here. -/
structure Token where
  type : TokenType
  value : List Char
  start : Nat
  stop : Nat
  deriving DecidableEq, Repr

/-- Python regex class `\s`.  We model the ASCII whitespace characters;
Python additionally matches rare Unicode spaces, which no claim exercises
and on which no stated property depends. -/
def isPySpace (c : Char) : Bool :=
  c = ' ' ∨ c = '\t' ∨ c = '\n' ∨ c = '\r' ∨ c = '\x0b' ∨ c = '\x0c'

/-- Python regex class `\d` (ASCII decimal digits; Unicode digits are not
exercised by any claim). -/
def isPyDigit (c : Char) : Bool :=
  '0' ≤ c ∧ c ≤ '9'

/-- First character of the `IDENTIFIER` pattern `[A-Za-z_]`. -/
def identStart (c : Char) : Bool :=
  ('A' ≤ c ∧ c ≤ 'Z') ∨ ('a' ≤ c ∧ c ≤ 'z') ∨ c = '_'

/-- Continuation characters of the `IDENTIFIER` pattern `[A-Za-z0-9_.]`. -/
def identChar (c : Char) : Bool :=
  identStart c ∨ isPyDigit c ∨ c = '.'

/-- Characters of the `OPERATOR` pattern `[+\-*/^&=<>!:]`. -/
def opChar (c : Char) : Bool :=
  c = '+' ∨ c = '-' ∨ c = '*' ∨ c = '/' ∨ c = '^' ∨ c = '&' ∨ c = '=' ∨
  c = '<' ∨ c = '>' ∨ c = '!' ∨ c = ':'

/-- Length matched after the opening quote by the greedy, backtracking regex
body `(?:""|[^"])*"`: prefer treating `""` as an escaped quote and fall back
to reading the quote as the closing one when the longer continuation fails. -/
def matchStringBody : List Char → Option Nat
  | [] => none
  | c :: rest =>
      if c = '"' then
        match rest with
        | d :: rest2 =>
            if d = '"' then
              match matchStringBody rest2 with
              | some n => some (n + 2)
              | none => some 1
            else some 1
        | [] => some 1
      else
        match matchStringBody rest with
        | some n => some (n + 1)
        | none => none

/-- `STRING` pattern `"(?:""|[^"])*"` matched at the front of the input;
returns the matched length. -/
def matchString : List Char → Option Nat
  | [] => none
  | c :: rest =>
      if c = '"' then
        match matchStringBody rest with
        | some n => some (n + 1)
        | none => none
      else none

/-- Number of leading `\d` characters. -/
def countDigits (l : List Char) : Nat :=
  (l.takeWhile isPyDigit).length

/-- Length contributed by the optional fraction group `(?:\.\d+)?` of the
`NUMBER` pattern (zero when the group does not match). -/
def fracLen (l : List Char) : Nat :=
  match l with
  | '.' :: r => let d2 := countDigits r; if d2 = 0 then 0 else d2 + 1
  | _ => 0

/-- Length contributed by the optional exponent group `(?:[eE][+-]?\d+)?` of
the `NUMBER` pattern (zero when the group does not match). -/
def expoLen (l : List Char) : Nat :=
  match l with
  | c :: r =>
      if c = 'e' ∨ c = 'E' then
        match r with
        | s :: r2 =>
            if s = '+' ∨ s = '-' then
              let d3 := countDigits r2
              if d3 = 0 then 0 else d3 + 2
            else
              let d3 := countDigits r
              if d3 = 0 then 0 else d3 + 1
        | [] => 0
      else 0
  | [] => 0

/-- `NUMBER` pattern `\d+(?:\.\d+)?(?:[eE][+-]?\d+)?` matched at the front of
the input. -/
def matchNumber (l : List Char) : Option Nat :=
  let d := countDigits l
  if d = 0 then none
  else
    let l1 := l.drop d
    let f := fracLen l1
    some (d + f + expoLen (l1.drop f))

/-- `IDENTIFIER` pattern `[A-Za-z_][A-Za-z0-9_.]*` matched at the front. -/
def matchIdent : List Char → Option Nat
  | [] => none
  | c :: rest =>
      if identStart c then some (1 + (rest.takeWhile identChar).length) else none

/-- A single fixed character (the paren/bracket/brace/comma/semicolon
patterns). -/
def matchChar (ch : Char) : List Char → Option Nat
  | [] => none
  | c :: _ => if c = ch then some 1 else none

/-- A nonempty run of characters of a class (`OPERATOR`, `WHITESPACE`). -/
def matchRun (p : Char → Bool) (l : List Char) : Option Nat :=
  let n := (l.takeWhile p).length
  if n = 0 then none else some n

/-- The ordered `PATTERNS` table of `FormulaTokenizer` ("order matters!"). -/
def PATTERNS : List (TokenType × (List Char → Option Nat)) :=
  [(TokenType.STRING, matchString),
   (TokenType.NUMBER, matchNumber),
   (TokenType.IDENTIFIER, matchIdent),
   (TokenType.LPAREN, matchChar '('),
   (TokenType.RPAREN, matchChar ')'),
   (TokenType.LBRACKET, matchChar '['),
   (TokenType.RBRACKET, matchChar ']'),
   (TokenType.LBRACE, matchChar '\x7b'),
   (TokenType.RBRACE, matchChar '\x7d'),
   (TokenType.COMMA, matchChar ','),
   (TokenType.SEMICOLON, matchChar ';'),
   (TokenType.OPERATOR, matchRun opChar),
   (TokenType.WHITESPACE, matchRun isPySpace)]

/-- Try the patterns in order; fall back to a one-character `UNKNOWN` token,
exactly as `tokenize` does for an unmatched character. -/
def matchFirstAux : List (TokenType × (List Char → Option Nat)) → List Char →
    TokenType × Nat
  | [], _ => (TokenType.UNKNOWN, 1)
  | (ty, m) :: ps, l =>
      match m l with
      | some n => (ty, n)
      | none => matchFirstAux ps l

/-- One step of `FormulaTokenizer.tokenize`. -/
def matchFirst (l : List Char) : TokenType × Nat :=
  matchFirstAux PATTERNS l

theorem matchString_pos (l : List Char) (n : Nat) :
    matchString l = some n → 0 < n := by
  cases l with
  | nil => simp [matchString]
  | cons c rest =>
      intro h
      simp only [matchString] at h
      split at h
      · cases hb : matchStringBody rest with
        | none => rw [hb] at h; simp at h
        | some m => rw [hb] at h; simp at h; omega
      · simp at h

theorem matchNumber_pos (l : List Char) (n : Nat) :
    matchNumber l = some n → 0 < n := by
  intro h
  simp only [matchNumber] at h
  split at h
  · simp at h
  · next hd =>
      simp only [Option.some.injEq] at h
      omega

theorem matchIdent_pos (l : List Char) (n : Nat) :
    matchIdent l = some n → 0 < n := by
  cases l with
  | nil => simp [matchIdent]
  | cons c rest =>
      intro h
      simp only [matchIdent] at h
      split at h
      · simp only [Option.some.injEq] at h; omega
      · simp at h

theorem matchChar_pos (ch : Char) (l : List Char) (n : Nat) :
    matchChar ch l = some n → 0 < n := by
  cases l with
  | nil => simp [matchChar]
  | cons c rest =>
      intro h
      simp only [matchChar] at h
      split at h
      · simp only [Option.some.injEq] at h; omega
      · simp at h

theorem matchRun_pos (p : Char → Bool) (l : List Char) (n : Nat) :
    matchRun p l = some n → 0 < n := by
  intro h
  simp only [matchRun] at h
  split at h
  · simp at h
  · next hn =>
      simp only [Option.some.injEq] at h
      omega

theorem matchFirstAux_pos (ps : List (TokenType × (List Char → Option Nat)))
    (hp : ∀ q ∈ ps, ∀ l n, q.2 l = some n → 0 < n) (l : List Char) :
    0 < (matchFirstAux ps l).2 := by
  induction ps with
  | nil => simp [matchFirstAux]
  | cons q rest ih =>
      obtain ⟨ty, m⟩ := q
      simp only [matchFirstAux]
      cases hm : m l with
      | some n => exact hp ⟨ty, m⟩ (List.mem_cons_self _ _) l n hm
      | none => exact ih (fun q hq => hp q (List.mem_cons_of_mem _ hq))

theorem matchFirst_pos (l : List Char) : 0 < (matchFirst l).2 := by
  apply matchFirstAux_pos
  intro q hq
  simp only [PATTERNS, List.mem_cons, List.not_mem_nil, or_false] at hq
  rcases hq with rfl | rfl | rfl | rfl | rfl | rfl | rfl | rfl | rfl | rfl |
    rfl | rfl | rfl
  · exact matchString_pos
  · exact matchNumber_pos
  · exact matchIdent_pos
  · exact matchChar_pos '('
  · exact matchChar_pos ')'
  · exact matchChar_pos '['
  · exact matchChar_pos ']'
  · exact matchChar_pos '\x7b'
  · exact matchChar_pos '\x7d'
  · exact matchChar_pos ','
  · exact matchChar_pos ';'
  · exact matchRun_pos opChar
  · exact matchRun_pos isPySpace

/-- `FormulaTokenizer.tokenize` main loop: repeatedly match the first pattern
at the current position, recording the matched slice and its positions.
The `while pos < length` loop is embedded with a fuel parameter; since every
step consumes at least one character (`matchFirst_pos`), fuel equal to the
input length is proved sufficient below, making the zero-fuel branch
unreachable from `tokenize`. -/
def tokenizeFuel : Nat → List Char → Nat → List Token
  | 0, _, _ => []
  | fuel + 1, l, pos =>
      if l = [] then []
      else
        let m := matchFirst l
        Token.mk m.1 (l.take m.2) pos (pos + m.2) ::
          tokenizeFuel fuel (l.drop m.2) (pos + m.2)

/-- `FormulaTokenizer.tokenize`. -/
def tokenize (l : List Char) : List Token :=
  tokenizeFuel l.length l 0

/-- `FormulaTokenizer.reconstruct`: concatenate the token texts in order. -/
def reconstruct : List Token → List Char
  | [] => []
  | t :: ts => t.value ++ reconstruct ts

theorem reconstruct_tokenizeFuel (fuel : Nat) :
    ∀ l : List Char, l.length ≤ fuel → ∀ pos,
      reconstruct (tokenizeFuel fuel l pos) = l := by
  induction fuel with
  | zero =>
      intro l hl pos
      have hnil : l = [] := List.length_eq_zero.mp (Nat.le_zero.mp hl)
      subst hnil
      simp [tokenizeFuel, reconstruct]
  | succ k ih =>
      intro l hl pos
      by_cases h : l = []
      · subst h
        simp [tokenizeFuel, reconstruct]
      · rw [tokenizeFuel, if_neg h]
        simp only [reconstruct]
        have hp := matchFirst_pos l
        have hlp : 0 < l.length := List.length_pos.mpr h
        rw [ih (l.drop (matchFirst l).2) (by simp only [List.length_drop]; omega)]
        exact List.take_append_drop _ _

/-- C1: For every input string `x`, including malformed fragments,
concatenating the text of the tokens produced by
`FormulaTokenizer.tokenize(x)` in order (`reconstruct(tokenize(x))`)
equals `x` byte-for-byte. -/
theorem tokenize_lossless (x : List Char) :
    reconstruct (tokenize x) = x :=
  reconstruct_tokenizeFuel x.length x (Nat.le_refl _) 0

/-! ## Parser (`refactoring/parser.py`)

`Node` is the CST sum type: `TokenNode` wraps one token, `FunctionCallNode`
holds the name token, preserved pre-paren whitespace tokens, the `(` token,
the argument slices and the `)` token.  In the source the `)` slot receives
`TokenNode(self._consume())` where `_consume` returns `None` at end of
input, so the slot is an `Option Token` here; serializing a node whose
`rparen` is `none` reproduces the `AttributeError` the source raises in
`to_string`, modelled as `none`.  Argument slices are a mutual inductive
(`SliceList`/`NodeList`) rather than nested `List (List Node)` so that all
traversals are structurally recursive. -/

mutual
inductive Node where
  | tok (t : Token)
  | call (name : Token) (preWs : List Token) (lparen : Token)
      (args : SliceList) (rparen : Option Token)
  deriving DecidableEq, Repr
inductive SliceList where
  | nil
  | cons (hd : NodeList) (tl : SliceList)
  deriving DecidableEq, Repr
inductive NodeList where
  | nil
  | cons (hd : Node) (tl : NodeList)
  deriving DecidableEq, Repr
end

/-- `args.append(current_arg)`. -/
def SliceList.snoc : SliceList → NodeList → SliceList
  | .nil, s => .cons s .nil
  | .cons hd tl, s => .cons hd (tl.snoc s)

/-- `current_arg.append(node)`. -/
def NodeList.snoc : NodeList → Node → NodeList
  | .nil, n => .cons n .nil
  | .cons hd tl, n => .cons hd (tl.snoc n)

mutual
/-- `FormulaParser._parse_next`.  Fuel-indexed embedding of the recursive
descent; the fuel supplied by `parseTokens` strictly exceeds the number of
steps the source can take, so the zero-fuel branches are unreachable. -/
def parseNextF : Nat → List Token → Option (Node × List Token)
  | 0, _ => none
  | _ + 1, [] => none
  | fuel + 1, t :: rest =>
      if t.type = TokenType.IDENTIFIER then
        -- look ahead across whitespace for LPAREN
        let ws := rest.takeWhile (fun x => x.type = TokenType.WHITESPACE)
        match rest.drop ws.length with
        | lp :: rest2 =>
            if lp.type = TokenType.LPAREN then
              match parseArgsF fuel rest2 .nil .nil with
              | (args, []) => some (.call t ws lp args none, [])
              | (args, r :: rest4) => some (.call t ws lp args (some r), rest4)
            else some (.tok t, rest)
        | [] => some (.tok t, rest)
      else some (.tok t, rest)

/-- The argument loop of `_parse_next`: collect slices until a top-level `)`
or end of input; a separator closes its slice (and is kept at its end); a
slice pending at end of input is dropped, exactly as the source's `break`
discards `current_arg`. -/
def parseArgsF : Nat → List Token → SliceList → NodeList →
    SliceList × List Token
  | 0, ts, args, _ => (args, ts)
  | _ + 1, [], args, _ => (args, [])
  | fuel + 1, t :: rest, args, cur =>
      if t.type = TokenType.RPAREN then
        (if cur = NodeList.nil then args else args.snoc cur, t :: rest)
      else if t.type = TokenType.COMMA ∨ t.type = TokenType.SEMICOLON then
        parseArgsF fuel rest (args.snoc (cur.snoc (.tok t))) .nil
      else
        match parseNextF fuel (t :: rest) with
        | some (node, rest2) => parseArgsF fuel rest2 args (cur.snoc node)
        | none => (args, t :: rest)
end

/-- `FormulaParser.parse`: collect top-level nodes until the stream ends. -/
def parseListF : Nat → List Token → List Node
  | 0, _ => []
  | fuel + 1, ts =>
      match parseNextF (fuel + 1) ts with
      | none => []
      | some (n, rest) => n :: parseListF fuel rest

/-- `FormulaParser(tokens).parse()`; every parser step consumes at least one
token, so `2 * length + 2` fuel is ample. -/
def parseTokens (ts : List Token) : List Node :=
  parseListF (2 * ts.length + 2) ts

/-- Concatenated text of the preserved whitespace tokens. -/
def wsValues : List Token → List Char
  | [] => []
  | t :: rest => t.value ++ wsValues rest

mutual
/-- `Node.to_string`.  `none` models the `AttributeError` raised when the
`rparen` slot holds `TokenNode(None)` (unterminated call); the source
serializes name, whitespace, `(`, the argument slices, then `)`, in order. -/
def nodeStr : Node → Option (List Char)
  | .tok t => some t.value
  | .call name ws lp args rp =>
      match slicesStr args with
      | none => none
      | some s =>
          match rp with
          | some r => some (name.value ++ wsValues ws ++ lp.value ++ s ++ r.value)
          | none => none

def slicesStr : SliceList → Option (List Char)
  | .nil => some []
  | .cons s rest =>
      match sliceStr s, slicesStr rest with
      | some a, some b => some (a ++ b)
      | _, _ => none

def sliceStr : NodeList → Option (List Char)
  | .nil => some []
  | .cons n rest =>
      match nodeStr n, sliceStr rest with
      | some a, some b => some (a ++ b)
      | _, _ => none
end

/-! ## Renamer (`refactoring/refactorer.py`) -/

/-- The rename map (`Dict[str, str]`); keys are unique in a Python dict, and
only lookup is used. -/
abbrev RenameMap := List (List Char × List Char)

/-- `self.rename_map[name]` / `name in self.rename_map`. -/
def mapGet : RenameMap → List Char → Option (List Char)
  | [], _ => none
  | (k, v) :: rest, key => if k = key then some v else mapGet rest key

/-- The scope is a Python `set` used only for membership and insertion, and
always copied before extension; a list of names embeds it. -/
abbrev Scope := List (List Char)

/-- `Refactorer._transform_token`: identifiers in scope are shadowed and kept;
otherwise the rename map is applied; non-identifier tokens pass through. -/
def transformToken (m : RenameMap) (scope : Scope) (t : Token) : Token :=
  if t.type = TokenType.IDENTIFIER then
    if t.value ∈ scope then t
    else
      match mapGet m t.value with
      | some newName => Token.mk TokenType.IDENTIFIER newName t.start t.stop
      | none => t
  else t

/-- `node.name_node.token.value.upper()`.  Identifier tokens are ASCII by the
tokenizer's `[A-Za-z_][A-Za-z0-9_.]*` pattern, so ASCII upcasing coincides
with Python `str.upper` on every reachable value. -/
def asciiUpper (l : List Char) : List Char :=
  l.map Char.toUpper

/-- Scan a slice for its first identifier token (`decl_name` extraction in
`_transform_let` / `_transform_lambda`); nested calls are skipped because the
source checks `isinstance(n, TokenNode)`. -/
def firstDeclName : NodeList → Option (List Char)
  | .nil => none
  | .cons (.tok t) rest =>
      if t.type = TokenType.IDENTIFIER then some t.value else firstDeclName rest
  | .cons _ rest => firstDeclName rest

/-- Add a declaration slice's name (if any) to the scope. -/
def addDecl (scope : Scope) (arg : NodeList) : Scope :=
  match firstDeclName arg with
  | some d => d :: scope
  | none => scope

mutual
/-- `Refactorer._transform`, dispatching on node kind; function calls go
through `_transform_function`, whose `upper()` comparison selects the LET and
LAMBDA scoping forms (both leave the name token untouched). -/
def transformNode (m : RenameMap) (scope : Scope) : Node → Node
  | .tok t => .tok (transformToken m scope t)
  | .call name ws lp args rp =>
      if asciiUpper name.value = [ 'L', 'E', 'T' ] then
        .call name ws lp (letLoop m scope args) rp
      else if asciiUpper name.value = [ 'L', 'A', 'M', 'B', 'D', 'A' ] then
        .call name ws lp (lamLoop m scope args) rp
      else
        .call (transformToken m scope name) ws lp (transformSlices m scope args) rp

/-- Ordinary call: every argument slice is transformed with the same ambient
scope. -/
def transformSlices (m : RenameMap) (scope : Scope) : SliceList → SliceList
  | .nil => .nil
  | .cons s rest => .cons (transformSlice m scope s) (transformSlices m scope rest)

def transformSlice (m : RenameMap) (scope : Scope) : NodeList → NodeList
  | .nil => .nil
  | .cons n rest => .cons (transformNode m scope n) (transformSlice m scope rest)

/-- The live loop of `Refactorer._transform_let` (the source's first loop over
`node.args` is discarded by the `# let's restart the loop` reset and has no
observable effect): a trailing lone slice is the body, transformed with the
accumulated scope; otherwise a declaration slice passes through untouched, the
following value slice is transformed with the scope *before* the declaration
is added, and the declaration's name is added afterwards. -/
def letLoop (m : RenameMap) (scope : Scope) : SliceList → SliceList
  | .nil => .nil
  | .cons e .nil => .cons (transformSlice m scope e) .nil
  | .cons nArg (.cons vArg rest) =>
      .cons nArg (.cons (transformSlice m scope vArg)
        (letLoop m (addDecl scope nArg) rest))

/-- `Refactorer._transform_lambda`: all slices but the last are parameter
declarations, passed through untouched with their first identifier added to
the scope; the last slice is the body, transformed with the full scope. -/
def lamLoop (m : RenameMap) (scope : Scope) : SliceList → SliceList
  | .nil => .nil
  | .cons e .nil => .cons (transformSlice m scope e) .nil
  | .cons p rest => .cons p (lamLoop m (addDecl scope p) rest)
end

/-- `"".join(node.to_string() for node in transformed_nodes)`; `none` when
serialization of any node raises. -/
def joinNodeStrs : List Node → Option (List Char)
  | [] => some []
  | n :: rest =>
      match nodeStr n, joinNodeStrs rest with
      | some a, some b => some (a ++ b)
      | _, _ => none

/-- `Refactorer.refactor`: tokenize, parse, transform every top-level node
with an empty scope, and reconstruct.  `none` models an uncaught exception. -/
def refactor (m : RenameMap) (formula : List Char) : Option (List Char) :=
  let nodes := parseTokens (tokenize formula)
  joinNodeStrs (nodes.map (transformNode m []))

/-! ## Renamer scoping claims -/

/-- Argument-slice list of a well-formed `LET(name1, value1, …, expr)` call:
the name/value pairs followed by the trailing body slice. -/
def pairsFlat : List (NodeList × NodeList) → NodeList → SliceList
  | [], e => .cons e .nil
  | (n, v) :: rest, e => .cons n (.cons v (pairsFlat rest e))

/-- The LET transformation as the specification words it: pair `i`'s value is
transformed using only the scope accumulated from pairs `1..i-1` (it does not
see its own name), the name is added to the scope only after its value was
transformed, declaration slices pass through verbatim (never through the
rename map), and the trailing body uses the scope of all pairs. -/
def letSpec (m : RenameMap) (scope : Scope) :
    List (NodeList × NodeList) → NodeList → SliceList
  | [], e => .cons (transformSlice m scope e) .nil
  | (n, v) :: rest, e =>
      .cons n (.cons (transformSlice m scope v)
        (letSpec m (addDecl scope n) rest e))

/-- Argument-slice list of a `LAMBDA(name1, …, namek, expr)` call. -/
def paramsFlat : List NodeList → NodeList → SliceList
  | [], e => .cons e .nil
  | p :: ps, e => .cons p (paramsFlat ps e)

/-- The LAMBDA transformation as the specification words it: every parameter
slice passes through verbatim with its name added to the scope before the
body is transformed; the body is transformed with the scope holding all
parameter names. -/
def lamSpec (m : RenameMap) (scope : Scope) : List NodeList → NodeList → SliceList
  | [], e => .cons (transformSlice m scope e) .nil
  | p :: ps, e => .cons p (lamSpec m (addDecl scope p) ps e)

theorem letLoop_eq_letSpec (m : RenameMap) (pairs : List (NodeList × NodeList))
    (scope : Scope) (e : NodeList) :
    letLoop m scope (pairsFlat pairs e) = letSpec m scope pairs e := by
  induction pairs generalizing scope with
  | nil => rfl
  | cons p rest ih =>
      obtain ⟨n, v⟩ := p
      show SliceList.cons n (SliceList.cons (transformSlice m scope v)
          (letLoop m (addDecl scope n) (pairsFlat rest e))) =
        SliceList.cons n (SliceList.cons (transformSlice m scope v)
          (letSpec m (addDecl scope n) rest e))
      rw [ih]

theorem lamLoop_eq_lamSpec (m : RenameMap) (ps : List NodeList)
    (scope : Scope) (e : NodeList) :
    lamLoop m scope (paramsFlat ps e) = lamSpec m scope ps e := by
  induction ps generalizing scope with
  | nil => rfl
  | cons p rest ih =>
      cases rest with
      | nil => simp [paramsFlat, lamSpec, lamLoop]
      | cons q rest2 =>
          show SliceList.cons p
              (lamLoop m (addDecl scope p) (paramsFlat (q :: rest2) e)) =
            SliceList.cons p (lamSpec m (addDecl scope p) (q :: rest2) e)
          rw [ih]

/-- C2: On a `LET(name1, value1, …, namen, valuen, expr)` call the renamer
transforms each value with only the scope of the earlier pairs, adds each
declared name after its value, transforms the trailing body with the full
scope, and passes declaration slices through verbatim (they never meet the
rename map); on `refactor("LET(a,1,b,a+1,b)", {"a": "A"})` every token is left
unchanged: declaration tokens `a` and `b` are untouched, the tail `b` is
unchanged, and the `a` inside `a+1` is shadowed by the earlier pair (whereas
an `a` free outside the LET is renamed). -/
theorem let_pair_scoping (m : RenameMap) (scope : Scope)
    (pairs : List (NodeList × NodeList)) (e : NodeList)
    (name : Token) (ws : List Token) (lp : Token) (rp : Option Token)
    (hname : name.value = [ 'L', 'E', 'T' ]) :
    transformNode m scope (.call name ws lp (pairsFlat pairs e) rp) =
        .call name ws lp (letSpec m scope pairs e) rp ∧
      refactor [("a".toList, "A".toList)] ("LET(a,1,b,a+1,b)".toList) =
        some ("LET(a,1,b,a+1,b)".toList) ∧
      refactor [("a".toList, "A".toList)] ("LET(a,1,a)+a".toList) =
        some ("LET(a,1,a)+A".toList) := by
  refine ⟨?_, by decide, by decide⟩
  rw [transformNode, hname]
  simp [asciiUpper, letLoop_eq_letSpec]

/-- Witness for `let_pair_scoping` at a concrete one-pair LET call. -/
theorem let_pair_scoping_witness :
    transformNode [( [ 'a' ], [ 'A' ] )] []
        (.call (Token.mk TokenType.IDENTIFIER [ 'L', 'E', 'T' ] 0 3) []
          (Token.mk TokenType.LPAREN [ '(' ] 3 4)
          (pairsFlat
            [(NodeList.cons (.tok (Token.mk TokenType.IDENTIFIER [ 'a' ] 4 5))
                .nil,
              NodeList.cons (.tok (Token.mk TokenType.NUMBER [ '1' ] 6 7))
                .nil)]
            (NodeList.cons (.tok (Token.mk TokenType.IDENTIFIER [ 'a' ] 8 9))
              .nil))
          (some (Token.mk TokenType.RPAREN [ ')' ] 9 10))) =
      .call (Token.mk TokenType.IDENTIFIER [ 'L', 'E', 'T' ] 0 3) []
        (Token.mk TokenType.LPAREN [ '(' ] 3 4)
        (letSpec [( [ 'a' ], [ 'A' ] )] []
          [(NodeList.cons (.tok (Token.mk TokenType.IDENTIFIER [ 'a' ] 4 5))
              .nil,
            NodeList.cons (.tok (Token.mk TokenType.NUMBER [ '1' ] 6 7))
              .nil)]
          (NodeList.cons (.tok (Token.mk TokenType.IDENTIFIER [ 'a' ] 8 9))
            .nil))
        (some (Token.mk TokenType.RPAREN [ ')' ] 9 10)) :=
  (let_pair_scoping [( [ 'a' ], [ 'A' ] )] [] _ _ _ [] _ _ rfl).1

/-- C8: On a `LAMBDA(name1, …, namek, expr)` call the name token `LAMBDA` is
never renamed, every parameter slice passes through verbatim with its name
added to the scope before the body is transformed, identifiers bound in the
scope are left unrenamed, and a same-named identifier free outside the LAMBDA
is renamed per the map: `refactor("LAMBDA(x, x+y)", {"x": "z"})` leaves the
bound `x` unrenamed while the free `x` in `x+LAMBDA(x, x+y)` becomes `z`. -/
theorem lambda_scoping (m : RenameMap) (scope : Scope)
    (ps : List NodeList) (e : NodeList)
    (name : Token) (ws : List Token) (lp : Token) (rp : Option Token)
    (hname : name.value = [ 'L', 'A', 'M', 'B', 'D', 'A' ])
    (t : Token) (ht : t.value ∈ scope) :
    transformNode m scope (.call name ws lp (paramsFlat ps e) rp) =
        .call name ws lp (lamSpec m scope ps e) rp ∧
      transformToken m scope t = t ∧
      refactor [("x".toList, "z".toList)] ("LAMBDA(x, x+y)".toList) =
        some ("LAMBDA(x, x+y)".toList) ∧
      refactor [("x".toList, "z".toList)] ("x+LAMBDA(x, x+y)".toList) =
        some ("z+LAMBDA(x, x+y)".toList) := by
  refine ⟨?_, ?_, by decide, by decide⟩
  · rw [transformNode, hname]
    simp [asciiUpper, lamLoop_eq_lamSpec]
  · rw [transformToken]
    split
    · simp [ht]
    · rfl

/-- Witness for `lambda_scoping` at a concrete one-parameter LAMBDA call. -/
theorem lambda_scoping_witness :
    transformNode [( [ 'x' ], [ 'z' ] )] [ [ 'w' ] ]
        (.call (Token.mk TokenType.IDENTIFIER [ 'L', 'A', 'M', 'B', 'D', 'A' ] 0 6)
          [] (Token.mk TokenType.LPAREN [ '(' ] 6 7)
          (paramsFlat
            [NodeList.cons (.tok (Token.mk TokenType.IDENTIFIER [ 'x' ] 7 8))
              .nil]
            (NodeList.cons (.tok (Token.mk TokenType.IDENTIFIER [ 'x' ] 9 10))
              .nil))
          (some (Token.mk TokenType.RPAREN [ ')' ] 10 11))) =
      .call (Token.mk TokenType.IDENTIFIER [ 'L', 'A', 'M', 'B', 'D', 'A' ] 0 6)
        [] (Token.mk TokenType.LPAREN [ '(' ] 6 7)
        (lamSpec [( [ 'x' ], [ 'z' ] )] [ [ 'w' ] ]
          [NodeList.cons (.tok (Token.mk TokenType.IDENTIFIER [ 'x' ] 7 8))
            .nil]
          (NodeList.cons (.tok (Token.mk TokenType.IDENTIFIER [ 'x' ] 9 10))
            .nil))
        (some (Token.mk TokenType.RPAREN [ ')' ] 10 11)) ∧
    transformToken [( [ 'x' ], [ 'z' ] )] [ [ 'w' ] ]
        (Token.mk TokenType.IDENTIFIER [ 'w' ] 0 1) =
      Token.mk TokenType.IDENTIFIER [ 'w' ] 0 1 :=
  ⟨(lambda_scoping [( [ 'x' ], [ 'z' ] )] [ [ 'w' ] ] _ _
      (Token.mk TokenType.IDENTIFIER [ 'L', 'A', 'M', 'B', 'D', 'A' ] 0 6)
      [] _ _ rfl
      (Token.mk TokenType.IDENTIFIER [ 'w' ] 0 1) (by decide)).1,
    (lambda_scoping [( [ 'x' ], [ 'z' ] )] [ [ 'w' ] ] [] .nil
      (Token.mk TokenType.IDENTIFIER [ 'L', 'A', 'M', 'B', 'D', 'A' ] 0 6)
      [] (Token.mk TokenType.LPAREN [ '(' ] 6 7) none rfl
      (Token.mk TokenType.IDENTIFIER [ 'w' ] 0 1) (by decide)).2.1⟩

/-- C10: The scoping dispatch in `_transform_function` upper-cases the call
name, so any case variant of `LET` or `LAMBDA` receives exactly the special
scoping treatment: the name token is never renamed and the arguments go
through the LET/LAMBDA loops instead of the ordinary-call path; concretely
`let(a,1,a)` and `Lambda(x, x)` are left intact even when the rename map
contains both the bound identifier and the call name itself. -/
theorem scoping_case_insensitive (m : RenameMap) (scope : Scope)
    (name : Token) (ws : List Token) (lp : Token) (args : SliceList)
    (rp : Option Token) :
    (asciiUpper name.value = [ 'L', 'E', 'T' ] →
        transformNode m scope (.call name ws lp args rp) =
          .call name ws lp (letLoop m scope args) rp) ∧
      (asciiUpper name.value = [ 'L', 'A', 'M', 'B', 'D', 'A' ] →
        transformNode m scope (.call name ws lp args rp) =
          .call name ws lp (lamLoop m scope args) rp) ∧
      refactor [("a".toList, "A".toList), ("let".toList, "LL".toList)]
        ("let(a,1,a)".toList) = some ("let(a,1,a)".toList) ∧
      refactor [("x".toList, "z".toList), ("Lambda".toList, "L".toList)]
        ("Lambda(x, x)".toList) = some ("Lambda(x, x)".toList) := by
  refine ⟨?_, ?_, by decide, by decide⟩
  · intro h
    rw [transformNode, h]
    simp
  · intro h
    rw [transformNode, h]
    simp

/-- Witness for `scoping_case_insensitive` at the lowercase spelling `let`. -/
theorem scoping_case_insensitive_witness :
    transformNode [] [] (.call (Token.mk TokenType.IDENTIFIER [ 'l', 'e', 't' ] 0 3)
        [] (Token.mk TokenType.LPAREN [ '(' ] 3 4) .nil
        (some (Token.mk TokenType.RPAREN [ ')' ] 4 5))) =
      .call (Token.mk TokenType.IDENTIFIER [ 'l', 'e', 't' ] 0 3)
        [] (Token.mk TokenType.LPAREN [ '(' ] 3 4)
        (letLoop [] [] .nil)
        (some (Token.mk TokenType.RPAREN [ ')' ] 4 5)) :=
  (scoping_case_insensitive [] [] _ [] _ .nil _).1 (by decide)

/-- C5 (failing input): on the unterminated input `f(` the parser leaves the
`rparen` slot empty (`TokenNode(None)` in the source) and serialization of
the transformed call dereferences it, so `Refactorer.refactor` raises an
`AttributeError` instead of returning a best-effort reconstruction; in the
embedding the run evaluates to `none`. -/
theorem refactor_crashes_on_unterminated_call :
    refactor [] ("f(".toList) = none := by decide

/-! ## Lockfile model (`domain/models.py`) and dict embedding

Python dicts preserve insertion order; assignment to an existing key updates
the value in place, a new key is appended.  `dictSet`/`dictGet` embed exactly
that on ordered association lists. -/

/-- `PackageLock` (pydantic model). -/
structure PackageLock where
  version : List Char
  resolved : Option (List Char)
  integrity : Option (List Char)
  dependencies : List (List Char)
  functions : List (List Char)
  deriving DecidableEq, Repr

/-- `Lockfile.packages : Dict[str, PackageLock]` as an ordered assoc list. -/
abbrev Lockfile := List (List Char × PackageLock)

/-- Python dict assignment `d[k] = v`. -/
def dictSet {V : Type} (d : List (List Char × V)) (k : List Char) (v : V) :
    List (List Char × V) :=
  match d with
  | [] => [(k, v)]
  | (k2, v2) :: rest =>
      if k2 = k then (k2, v) :: rest else (k2, v2) :: dictSet rest k v

/-- Python `d.get(k)`. -/
def dictGet {V : Type} (d : List (List Char × V)) (k : List Char) : Option V :=
  match d with
  | [] => none
  | (k2, v) :: rest => if k2 = k then some v else dictGet rest k

theorem dictGet_dictSet_self {V : Type} (d : List (List Char × V)) (k : List Char)
    (v : V) : dictGet (dictSet d k v) k = some v := by
  induction d with
  | nil => simp [dictSet, dictGet]
  | cons e rest ih =>
      obtain ⟨k2, v2⟩ := e
      by_cases h : k2 = k
      · simp [dictSet, dictGet, h]
      · simp [dictSet, dictGet, h, ih]

theorem dictGet_dictSet_ne {V : Type} (d : List (List Char × V)) (k k2 : List Char)
    (v : V) (h : k2 ≠ k) : dictGet (dictSet d k v) k2 = dictGet d k2 := by
  induction d with
  | nil =>
      simp only [dictSet, dictGet]
      rw [if_neg (fun hh => h hh.symm)]
  | cons e rest ih =>
      obtain ⟨k3, v3⟩ := e
      simp only [dictSet]
      by_cases h3 : k3 = k
      · rw [if_pos h3]
        simp only [dictGet]
        by_cases h32 : k3 = k2
        · exact absurd (h32 ▸ h3) h
        · rw [if_neg h32, if_neg h32]
      · rw [if_neg h3]
        simp only [dictGet]
        by_cases h32 : k3 = k2
        · rw [if_pos h32, if_pos h32]
        · rw [if_neg h32, if_neg h32, ih]

theorem mem_dictSet {V : Type} (d : List (List Char × V)) (k : List Char) (v : V)
    (e : List Char × V) (he : e ∈ dictSet d k v) : e ∈ d ∨ e = (k, v) := by
  induction d with
  | nil =>
      right
      simpa [dictSet] using he
  | cons x rest ih =>
      obtain ⟨k2, v2⟩ := x
      by_cases h : k2 = k
      · rw [dictSet, if_pos h] at he
        rcases List.mem_cons.mp he with he1 | he2
        · right; rw [he1, h]
        · left; exact List.mem_cons_of_mem _ he2
      · rw [dictSet, if_neg h] at he
        rcases List.mem_cons.mp he with he1 | he2
        · left; rw [he1]; exact List.mem_cons_self _ _
        · rcases ih he2 with h2 | h2
          · left; exact List.mem_cons_of_mem _ h2
          · right; exact h2

/-! ## Install service (`services/install.py`, phases 1–2)

The pure collision/lockfile logic of `InstallService.install` is embedded
with its environment explicit: the current sheet function names
(`existing_func_names`), the previous lockfile, the per-package rename maps
(`resolutions`) and the materialized packages to install (name, version,
origin, integrity, declared dependencies and extracted function names, in
dict order).  Function bodies play no role in collision detection or
lockfile assembly and are omitted. -/

/-- One entry of `packages_to_install` after extraction. -/
structure InstallPkg where
  name : List Char
  version : List Char
  resolved : List Char
  integrity : Option (List Char)
  dependencies : List (List Char)
  functions : List (List Char)
  deriving DecidableEq, Repr

/-- `CollisionError` from `domain/errors.py`: the installing package's name
and the collected conflict list. -/
structure CollisionError where
  package_name : List Char
  conflicts : List (List Char)
  deriving DecidableEq, Repr

/-- Applying a package's rename map before the collision check: the source
rebuilds the function dict as `renamed[pkg_resolutions.get(f, f)] = func`
only when the map is nonempty; re-keying keeps first-insertion order and
collapses duplicate targets. -/
def applyResolutions (res : RenameMap) (fns : List (List Char)) :
    List (List Char) :=
  if res = [] then fns
  else
    fns.foldl
      (fun acc f =>
        let nf := (mapGet res f).getD f
        if nf ∈ acc then acc else acc ++ [nf])
      []

/-- `current_ownership`: function name → owning package, built by iterating
the previous lockfile in order. -/
def buildOwnership (prev : Lockfile) : List (List Char × List Char) :=
  prev.foldl
    (fun acc e => e.2.functions.foldl (fun a f => dictSet a f e.1) acc) []

/-- One iteration of the collision loop body for a single function name:
conflict against the existing sheet functions when the recorded owner is not
the installing package, conflict against the running batch map when another
package already introduced the name, then record the name in the batch map. -/
def conflictStep (existing : List (List Char))
    (ownership : List (List Char × List Char)) (name : List Char)
    (acc : List (List Char) × List (List Char × List Char)) (fname : List Char) :
    List (List Char) × List (List Char × List Char) :=
  let cf1 :=
    if fname ∈ existing ∧ dictGet ownership fname ≠ some name
    then acc.1 ++ [fname] else acc.1
  let cf2 :=
    match dictGet acc.2 fname with
    | some other => if other ≠ name then cf1 ++ [fname] else cf1
    | none => cf1
  (cf2, dictSet acc.2 fname name)

/-- The collision loop over one package's (renamed) function names, threading
the batch map `new_functions_map`. -/
def packageConflicts (existing : List (List Char))
    (ownership : List (List Char × List Char)) (name : List Char)
    (nm : List (List Char × List Char)) (fns : List (List Char)) :
    List (List Char) × List (List Char × List Char) :=
  fns.foldl (conflictStep existing ownership name) ([], nm)

/-- Phase 1 of `install`: process `packages_to_install` in order, renaming
each package's function names, collecting its complete conflict list, and
raising `CollisionError(name, conflicts)` at the first package whose list is
nonempty; on success returns each package paired with its final function
names, together with the final batch map. -/
def processPackages (existing : List (List Char))
    (ownership : List (List Char × List Char))
    (resolutions : List (List Char × RenameMap)) :
    List InstallPkg → List (List Char × List Char) →
      Except CollisionError (List (InstallPkg × List (List Char)) ×
        List (List Char × List Char))
  | [], nm => .ok ([], nm)
  | pkg :: rest, nm =>
      let fns2 := applyResolutions ((dictGet resolutions pkg.name).getD []) pkg.functions
      let res := packageConflicts existing ownership pkg.name nm fns2
      if res.1 ≠ [] then .error ⟨pkg.name, res.1⟩
      else
        match processPackages existing ownership resolutions rest res.2 with
        | .ok (out, nmF) => .ok ((pkg, fns2) :: out, nmF)
        | .error e => .error e

/-- Phase 2 lockfile assembly: `lockfile.packages[name] = PackageLock(...)`
in processing order. -/
def installLockfile : List (InstallPkg × List (List Char)) → Lockfile → Lockfile
  | [], lf => lf
  | (pkg, fns) :: rest, lf =>
      installLockfile rest
        (dictSet lf pkg.name
          (PackageLock.mk pkg.version (some pkg.resolved) pkg.integrity
            pkg.dependencies fns))

/-- The observable outcome of `InstallService.install` phases 1–2: either the
collision error or the freshly assembled lockfile. -/
def installResult (existing : List (List Char)) (prev : Lockfile)
    (resolutions : List (List Char × RenameMap)) (pkgs : List InstallPkg) :
    Except CollisionError Lockfile :=
  match processPackages existing (buildOwnership prev) resolutions pkgs [] with
  | .ok (processed, _) => .ok (installLockfile processed [])
  | .error e => .error e

/-- The conflict condition of the claim, relative to the batch map `nm` at the
moment the package is processed. -/
def conflictCond (existing : List (List Char))
    (ownership : List (List Char × List Char)) (name : List Char)
    (nm : List (List Char × List Char)) (f : List Char) : Prop :=
  (f ∈ existing ∧ dictGet ownership f ≠ some name) ∨
    (∃ q, dictGet nm f = some q ∧ q ≠ name)

theorem conflictStep_snd (existing : List (List Char))
    (ownership : List (List Char × List Char)) (name : List Char)
    (acc : List (List Char) × List (List Char × List Char)) (g : List Char) :
    (conflictStep existing ownership name acc g).2 = dictSet acc.2 g name := rfl

theorem conflictStep_fst (existing : List (List Char))
    (ownership : List (List Char × List Char)) (name : List Char)
    (acc : List (List Char) × List (List Char × List Char)) (g : List Char) :
    (conflictStep existing ownership name acc g).1 =
      acc.1 ++
        (if g ∈ existing ∧ dictGet ownership g ≠ some name then [g] else []) ++
        (match dictGet acc.2 g with
          | some q => if q ≠ name then [g] else []
          | none => []) := by
  simp only [conflictStep]
  by_cases h1 : g ∈ existing ∧ dictGet ownership g ≠ some name
  · cases hgq : dictGet acc.2 g with
    | none => simp [h1, hgq]
    | some q => by_cases hqn : q ≠ name <;> simp [h1, hgq, hqn]
  · cases hgq : dictGet acc.2 g with
    | none => simp [h1, hgq]
    | some q => by_cases hqn : q ≠ name <;> simp [h1, hgq, hqn]

theorem conflictStep_mem (existing : List (List Char))
    (ownership : List (List Char × List Char)) (name : List Char)
    (cf0 : List (List Char)) (nm0 : List (List Char × List Char))
    (g f : List Char) :
    f ∈ (conflictStep existing ownership name (cf0, nm0) g).1 ↔
      f ∈ cf0 ∨ (f = g ∧ conflictCond existing ownership name nm0 g) := by
  rw [conflictStep_fst]
  simp only [conflictCond]
  by_cases h1 : g ∈ existing ∧ dictGet ownership g ≠ some name
  · cases hgq : dictGet nm0 g with
    | none =>
        simp only [if_pos h1, hgq, List.append_nil, List.mem_append,
          List.mem_singleton]
        constructor
        · rintro (hc | rfl)
          · exact Or.inl hc
          · exact Or.inr ⟨rfl, Or.inl h1⟩
        · rintro (hc | ⟨rfl, _⟩)
          · exact Or.inl hc
          · exact Or.inr rfl
    | some q =>
        by_cases hqn : q ≠ name
        · simp only [if_pos h1, hgq, if_pos hqn, List.mem_append,
            List.mem_singleton]
          constructor
          · rintro ((hc | rfl) | rfl)
            · exact Or.inl hc
            · exact Or.inr ⟨rfl, Or.inl h1⟩
            · exact Or.inr ⟨rfl, Or.inl h1⟩
          · rintro (hc | ⟨rfl, _⟩)
            · exact Or.inl (Or.inl hc)
            · exact Or.inl (Or.inr rfl)
        · simp only [if_pos h1, hgq, if_neg hqn, List.append_nil,
            List.mem_append, List.mem_singleton]
          constructor
          · rintro (hc | rfl)
            · exact Or.inl hc
            · exact Or.inr ⟨rfl, Or.inl h1⟩
          · rintro (hc | ⟨rfl, _⟩)
            · exact Or.inl hc
            · exact Or.inr rfl
  · cases hgq : dictGet nm0 g with
    | none =>
        simp only [if_neg h1, hgq, List.append_nil, List.mem_append]
        constructor
        · exact Or.inl
        · rintro (hc | ⟨rfl, (hco | ⟨q, hq, hqn⟩)⟩)
          · exact hc
          · exact absurd hco h1
          · simp [hgq] at hq
    | some q =>
        by_cases hqn : q ≠ name
        · simp only [if_neg h1, hgq, if_pos hqn, List.append_nil,
            List.mem_append, List.mem_singleton]
          constructor
          · rintro (hc | rfl)
            · exact Or.inl hc
            · exact Or.inr ⟨rfl, Or.inr ⟨q, by simp [hgq], hqn⟩⟩
          · rintro (hc | ⟨rfl, _⟩)
            · exact Or.inl hc
            · exact Or.inr rfl
        · simp only [if_neg h1, hgq, if_neg hqn, List.append_nil,
            List.mem_append]
          constructor
          · exact Or.inl
          · rintro (hc | ⟨rfl, (hco | ⟨q2, hq2, hqn2⟩)⟩)
            · exact hc
            · exact absurd hco h1
            · have hq2q : q = q2 := by simpa [hgq] using hq2
              exact absurd (by rw [hq2q]; exact hqn2) hqn

theorem packageConflicts_fold_mem (existing : List (List Char))
    (ownership : List (List Char × List Char)) (name : List Char) :
    ∀ (fns : List (List Char)) (cf0 : List (List Char))
      (nm0 : List (List Char × List Char)), fns.Nodup → ∀ f,
      (f ∈ (fns.foldl (conflictStep existing ownership name) (cf0, nm0)).1 ↔
        f ∈ cf0 ∨ (f ∈ fns ∧ conflictCond existing ownership name nm0 f)) := by
  intro fns
  induction fns with
  | nil => intro cf0 nm0 _ f; simp
  | cons g rest ih =>
      intro cf0 nm0 hnd f
      have hgrest : g ∉ rest := (List.nodup_cons.mp hnd).1
      have hndr : rest.Nodup := (List.nodup_cons.mp hnd).2
      rw [List.foldl_cons]
      have hstep : conflictStep existing ownership name (cf0, nm0) g =
          ((conflictStep existing ownership name (cf0, nm0) g).1,
            dictSet nm0 g name) := by
        conv_rhs => rw [← conflictStep_snd existing ownership name (cf0, nm0) g]
      rw [hstep, ih _ _ hndr f, conflictStep_mem]
      constructor
      · rintro ((hc | ⟨rfl, hcond⟩) | ⟨hfr, hcond⟩)
        · exact Or.inl hc
        · exact Or.inr ⟨List.mem_cons_self _ _, hcond⟩
        · refine Or.inr ⟨List.mem_cons_of_mem _ hfr, ?_⟩
          have hne : f ≠ g := fun h => hgrest (h ▸ hfr)
          rcases hcond with h1 | ⟨q, hq, hqn⟩
          · exact Or.inl h1
          · rw [dictGet_dictSet_ne _ _ _ _ hne] at hq
            exact Or.inr ⟨q, hq, hqn⟩
      · rintro (hc | ⟨hfg, hcond⟩)
        · exact Or.inl (Or.inl hc)
        · rcases List.mem_cons.mp hfg with rfl | hfr
          · exact Or.inl (Or.inr ⟨rfl, hcond⟩)
          · refine Or.inr ⟨hfr, ?_⟩
            have hne : f ≠ g := fun h => hgrest (h ▸ hfr)
            rcases hcond with h1 | ⟨q, hq, hqn⟩
            · exact Or.inl h1
            · exact Or.inr ⟨q, by rw [dictGet_dictSet_ne _ _ _ _ hne]; exact hq, hqn⟩

theorem packageConflicts_snd_not_mem (existing : List (List Char))
    (ownership : List (List Char × List Char)) (name : List Char) :
    ∀ (fns : List (List Char)) (cf0 : List (List Char))
      (nm0 : List (List Char × List Char)) (f : List Char), f ∉ fns →
      dictGet (fns.foldl (conflictStep existing ownership name) (cf0, nm0)).2 f =
        dictGet nm0 f := by
  intro fns
  induction fns with
  | nil => intro cf0 nm0 f _; rfl
  | cons g rest ih =>
      intro cf0 nm0 f hf
      have hfg : f ≠ g := fun h => hf (h ▸ List.mem_cons_self _ _)
      have hfr : f ∉ rest := fun h => hf (List.mem_cons_of_mem _ h)
      rw [List.foldl_cons]
      have hstep : conflictStep existing ownership name (cf0, nm0) g =
          ((conflictStep existing ownership name (cf0, nm0) g).1,
            dictSet nm0 g name) := by
        conv_rhs => rw [← conflictStep_snd existing ownership name (cf0, nm0) g]
      rw [hstep, ih _ _ _ hfr, dictGet_dictSet_ne _ _ _ _ hfg]

theorem packageConflicts_snd_of_mem (existing : List (List Char))
    (ownership : List (List Char × List Char)) (name : List Char) :
    ∀ (fns : List (List Char)) (cf0 : List (List Char))
      (nm0 : List (List Char × List Char)) (f : List Char), f ∈ fns →
      dictGet (fns.foldl (conflictStep existing ownership name) (cf0, nm0)).2 f =
        some name := by
  intro fns
  induction fns with
  | nil => intro cf0 nm0 f hf; simp at hf
  | cons g rest ih =>
      intro cf0 nm0 f hf
      rw [List.foldl_cons]
      have hstep : conflictStep existing ownership name (cf0, nm0) g =
          ((conflictStep existing ownership name (cf0, nm0) g).1,
            dictSet nm0 g name) := by
        conv_rhs => rw [← conflictStep_snd existing ownership name (cf0, nm0) g]
      rw [hstep]
      by_cases hfr : f ∈ rest
      · exact ih _ _ _ hfr
      · rcases List.mem_cons.mp hf with rfl | hmem
        · rw [packageConflicts_snd_not_mem existing ownership name rest _ _ _ hfr,
            dictGet_dictSet_self]
        · exact absurd hmem hfr

theorem conflicts_empty_cond (existing : List (List Char))
    (ownership : List (List Char × List Char)) (name : List Char)
    (nm : List (List Char × List Char)) (fns : List (List Char))
    (hnd : fns.Nodup)
    (hempty : (packageConflicts existing ownership name nm fns).1 = []) :
    ∀ f ∈ fns, ¬ conflictCond existing ownership name nm f := by
  intro f hf hcond
  have hmem := (packageConflicts_fold_mem existing ownership name fns [] nm hnd f).mpr
    (Or.inr ⟨hf, hcond⟩)
  rw [show fns.foldl (conflictStep existing ownership name) ([], nm) =
    packageConflicts existing ownership name nm fns from rfl, hempty] at hmem
  simp at hmem

theorem applyResolutions_nodup (res : RenameMap) (fns : List (List Char))
    (h : fns.Nodup) : (applyResolutions res fns).Nodup := by
  rw [applyResolutions]
  split
  · exact h
  · have haux : ∀ (l : List (List Char)) (acc : List (List Char)), acc.Nodup →
        (l.foldl (fun acc f =>
          let nf := (mapGet res f).getD f
          if nf ∈ acc then acc else acc ++ [nf]) acc).Nodup := by
      intro l
      induction l with
      | nil => intro acc hacc; exact hacc
      | cons g rest ih =>
          intro acc hacc
          rw [List.foldl_cons]
          by_cases hm : (mapGet res g).getD g ∈ acc
          · simp only [hm, if_pos]
            exact ih acc hacc
          · simp only [hm, if_neg, not_false_iff]
            refine ih _ ?_
            simp [List.nodup_append, hacc, hm]
    exact haux fns [] List.nodup_nil

/-- The conclusion of Lemma A: every accepted function of every accepted
package was, in the batch map at the start of processing, either absent or
already mapped to that same package. -/
theorem processPackages_batch_inv (existing : List (List Char))
    (ownership : List (List Char × List Char))
    (resolutions : List (List Char × RenameMap)) :
    ∀ (pkgs : List InstallPkg) (nm : List (List Char × List Char))
      (out : List (InstallPkg × List (List Char)))
      (nmF : List (List Char × List Char)),
      (∀ p ∈ pkgs, p.functions.Nodup) →
      processPackages existing ownership resolutions pkgs nm = .ok (out, nmF) →
      ∀ pe ∈ out, ∀ f ∈ pe.2,
        dictGet nm f = none ∨ dictGet nm f = some pe.1.name := by
  intro pkgs
  induction pkgs with
  | nil =>
      intro nm out nmF _ hok pe hpe
      simp only [processPackages] at hok
      cases hok
      simp at hpe
  | cons pkg rest ih =>
      intro nm out nmF hnd hok pe hpe f hf
      simp only [processPackages] at hok
      set fns2 := applyResolutions ((dictGet resolutions pkg.name).getD [])
        pkg.functions with hfns2
      have hnd2 : fns2.Nodup :=
        applyResolutions_nodup _ _ (hnd pkg (List.mem_cons_self _ _))
      by_cases hc : (packageConflicts existing ownership pkg.name nm fns2).1 ≠ []
      · rw [if_pos hc] at hok
        cases hok
      · rw [if_neg hc] at hok
        push_neg at hc
        cases hrec : processPackages existing ownership resolutions rest
          (packageConflicts existing ownership pkg.name nm fns2).2 with
        | error e => rw [hrec] at hok; cases hok
        | ok pr =>
            obtain ⟨out2, nm2⟩ := pr
            rw [hrec] at hok
            cases hok
            have hcondAll := conflicts_empty_cond existing ownership pkg.name nm
              fns2 hnd2 hc
            rcases List.mem_cons.mp hpe with rfl | hpe2
            · -- the head package itself
              have hnc := hcondAll f hf
              simp only [conflictCond, not_or] at hnc
              cases hq : dictGet nm f with
              | none => exact Or.inl rfl
              | some q =>
                  by_cases hqn : q = pkg.name
                  · exact Or.inr (by rw [hqn])
                  · exact absurd ⟨q, hq, hqn⟩ hnc.2
            · -- a later package, via the induction hypothesis at the evolved map
              have hrest := ih _ _ _ (fun p hp => hnd p (List.mem_cons_of_mem _ hp))
                hrec pe hpe2 f hf
              by_cases hfm : f ∈ fns2
              · have hset : dictGet
                    (packageConflicts existing ownership pkg.name nm fns2).2 f =
                    some pkg.name :=
                  packageConflicts_snd_of_mem existing ownership pkg.name fns2 [] nm f hfm
                rw [hset] at hrest
                rcases hrest with hcn | hcn
                · cases hcn
                · have hname : pkg.name = pe.1.name := by
                    simpa using hcn
                  have hnc := hcondAll f hfm
                  simp only [conflictCond, not_or] at hnc
                  cases hq : dictGet nm f with
                  | none => exact Or.inl rfl
                  | some q =>
                      by_cases hqn : q = pkg.name
                      · exact Or.inr (by rw [hqn, hname])
                      · exact absurd ⟨q, hq, hqn⟩ hnc.2
              · have hsame : dictGet
                    (packageConflicts existing ownership pkg.name nm fns2).2 f =
                    dictGet nm f :=
                  packageConflicts_snd_not_mem existing ownership pkg.name fns2 [] nm f hfm
                rw [hsame] at hrest
                exact hrest

/-- Two distinct successfully processed packages never share a function
name. -/
theorem processPackages_disjoint (existing : List (List Char))
    (ownership : List (List Char × List Char))
    (resolutions : List (List Char × RenameMap)) :
    ∀ (pkgs : List InstallPkg) (nm : List (List Char × List Char))
      (out : List (InstallPkg × List (List Char)))
      (nmF : List (List Char × List Char)),
      (∀ p ∈ pkgs, p.functions.Nodup) →
      processPackages existing ownership resolutions pkgs nm = .ok (out, nmF) →
      ∀ pe1 ∈ out, ∀ pe2 ∈ out, pe1.1.name ≠ pe2.1.name →
        ∀ f ∈ pe1.2, f ∉ pe2.2 := by
  intro pkgs
  induction pkgs with
  | nil =>
      intro nm out nmF _ hok pe1 hpe1
      simp only [processPackages] at hok
      cases hok
      simp at hpe1
  | cons pkg rest ih =>
      intro nm out nmF hnd hok pe1 hpe1 pe2 hpe2 hne f hf1 hf2
      simp only [processPackages] at hok
      set fns2 := applyResolutions ((dictGet resolutions pkg.name).getD [])
        pkg.functions with hfns2
      by_cases hc : (packageConflicts existing ownership pkg.name nm fns2).1 ≠ []
      · rw [if_pos hc] at hok
        cases hok
      · rw [if_neg hc] at hok
        cases hrec : processPackages existing ownership resolutions rest
          (packageConflicts existing ownership pkg.name nm fns2).2 with
        | error e => rw [hrec] at hok; cases hok
        | ok pr =>
            obtain ⟨out2, nm2⟩ := pr
            rw [hrec] at hok
            cases hok
            have hndr : ∀ p ∈ rest, p.functions.Nodup :=
              fun p hp => hnd p (List.mem_cons_of_mem _ hp)
            have hinv := processPackages_batch_inv existing ownership resolutions
              rest _ _ _ hndr hrec
            rcases List.mem_cons.mp hpe1 with rfl | hpe1r
            · rcases List.mem_cons.mp hpe2 with heq | hpe2r
              · exact hne (by rw [heq])
              · -- pe1 is the head, pe2 comes later
                have hset : dictGet
                    (packageConflicts existing ownership pkg.name nm fns2).2 f =
                    some pkg.name :=
                  packageConflicts_snd_of_mem existing ownership pkg.name fns2 [] nm f hf1
                have h2 := hinv pe2 hpe2r f hf2
                rw [hset] at h2
                rcases h2 with h2 | h2
                · cases h2
                · exact hne (by simpa using h2)
            · rcases List.mem_cons.mp hpe2 with rfl | hpe2r
              · -- pe2 is the head, pe1 comes later
                have hset : dictGet
                    (packageConflicts existing ownership pkg.name nm fns2).2 f =
                    some pkg.name :=
                  packageConflicts_snd_of_mem existing ownership pkg.name fns2 [] nm f hf2
                have h1 := hinv pe1 hpe1r f hf1
                rw [hset] at h1
                rcases h1 with h1 | h1
                · cases h1
                · exact hne (by simpa using h1.symm)
              · exact ih _ _ _ hndr hrec pe1 hpe1r pe2 hpe2r hne f hf1 hf2

theorem processPackages_append (existing : List (List Char))
    (ownership : List (List Char × List Char))
    (resolutions : List (List Char × RenameMap)) :
    ∀ (xs : List InstallPkg) (nm : List (List Char × List Char)) out nm1,
      processPackages existing ownership resolutions xs nm = .ok (out, nm1) →
      ∀ ys, processPackages existing ownership resolutions (xs ++ ys) nm =
        match processPackages existing ownership resolutions ys nm1 with
        | .ok (out2, nm2) => .ok (out ++ out2, nm2)
        | .error e => .error e := by
  intro xs
  induction xs with
  | nil =>
      intro nm out nm1 hok ys
      simp only [processPackages] at hok
      cases hok
      simp only [List.nil_append]
      cases h : processPackages existing ownership resolutions ys nm with
      | ok pr => obtain ⟨o2, n2⟩ := pr; simp
      | error e => simp
  | cons pkg rest ih =>
      intro nm out nm1 hok ys
      simp only [processPackages] at hok ⊢
      set fns2 := applyResolutions ((dictGet resolutions pkg.name).getD [])
        pkg.functions with hfns2
      by_cases hc : (packageConflicts existing ownership pkg.name nm fns2).1 ≠ []
      · rw [if_pos hc] at hok
        cases hok
      · rw [if_neg hc] at hok ⊢
        cases hrec : processPackages existing ownership resolutions rest
          (packageConflicts existing ownership pkg.name nm fns2).2 with
        | error e => rw [hrec] at hok; cases hok
        | ok pr =>
            obtain ⟨out2, nm2⟩ := pr
            rw [hrec] at hok
            cases hok
            simp only [List.append_eq]
            rw [ih _ _ _ hrec ys]
            cases h : processPackages existing ownership resolutions ys nm1 with
            | ok pr2 => obtain ⟨o3, n3⟩ := pr2; simp [h]
            | error e => simp [h]

/-- C3: `install` raises `CollisionError` (the spec's `FunctionCollision`)
carrying the installing package's name and that package's complete conflict
list; after the package's rename map is applied, a function name conflicts
exactly when it already exists in the current function set with a recorded
owner other than the installing package (an unowned existing name counts,
since its owner `None` differs from the package), or another package earlier
in the batch introduced it; concretely a package re-introducing a function it
already owns installs cleanly, a function owned by a different package
raises `CollisionError("P", ["F"])`, and two batch packages sharing a name
raise at the second one. -/
theorem install_collision_error :
    (∀ (existing : List (List Char)) (ownership : List (List Char × List Char))
        (name : List Char) (nm : List (List Char × List Char))
        (fns : List (List Char)), fns.Nodup → ∀ f,
        (f ∈ (packageConflicts existing ownership name nm fns).1 ↔
          f ∈ fns ∧ conflictCond existing ownership name nm f)) ∧
      (∀ (existing : List (List Char)) (prev : Lockfile)
          (resolutions : List (List Char × RenameMap))
          (pkgs1 : List InstallPkg) (pkg : InstallPkg) (pkgs2 : List InstallPkg)
          (out : List (InstallPkg × List (List Char)))
          (nm1 : List (List Char × List Char)),
        processPackages existing (buildOwnership prev) resolutions pkgs1 [] =
          .ok (out, nm1) →
        (packageConflicts existing (buildOwnership prev) pkg.name nm1
            (applyResolutions ((dictGet resolutions pkg.name).getD [])
              pkg.functions)).1 ≠ [] →
        installResult existing prev resolutions (pkgs1 ++ pkg :: pkgs2) =
          .error ⟨pkg.name,
            (packageConflicts existing (buildOwnership prev) pkg.name nm1
              (applyResolutions ((dictGet resolutions pkg.name).getD [])
                pkg.functions)).1⟩) ∧
      installResult [[ 'F' ]]
          [([ 'Q' ], PackageLock.mk [ '1' ] none none [] [[ 'F' ]])] []
          [InstallPkg.mk [ 'P' ] [ '1' ] [] none [] [[ 'F' ]]] =
        .error ⟨[ 'P' ], [[ 'F' ]]⟩ ∧
      installResult [[ 'F' ]]
          [([ 'P' ], PackageLock.mk [ '1' ] none none [] [[ 'F' ]])] []
          [InstallPkg.mk [ 'P' ] [ '1' ] [] none [] [[ 'F' ]]] =
        .ok [([ 'P' ], PackageLock.mk [ '1' ] (some []) none [] [[ 'F' ]])] ∧
      installResult [] [] []
          [InstallPkg.mk [ 'P' ] [ '1' ] [] none [] [[ 'F' ]],
           InstallPkg.mk [ 'R' ] [ '1' ] [] none [] [[ 'F' ]]] =
        .error ⟨[ 'R' ], [[ 'F' ]]⟩ := by
  refine ⟨?_, ?_, rfl, rfl, rfl⟩
  · intro existing ownership name nm fns hnd f
    rw [show packageConflicts existing ownership name nm fns =
      fns.foldl (conflictStep existing ownership name) ([], nm) from rfl,
      packageConflicts_fold_mem existing ownership name fns [] nm hnd f]
    simp
  · intro existing prev resolutions pkgs1 pkg pkgs2 out nm1 hok hconf
    rw [installResult,
      processPackages_append existing (buildOwnership prev) resolutions pkgs1 []
        out nm1 hok (pkg :: pkgs2)]
    simp only [processPackages]
    rw [if_pos hconf]

/-- Witness for `install_collision_error`: the characterization instantiated
at a one-function package colliding with an existing foreign-owned function,
and the error-propagation part instantiated at an empty prefix batch. -/
theorem install_collision_error_witness :
    (([ 'F' ] : List Char) ∈
        (packageConflicts [[ 'F' ]] [([ 'F' ], [ 'Q' ])] [ 'P' ] [] [[ 'F' ]]).1 ↔
      ([ 'F' ] : List Char) ∈ [[ 'F' ]] ∧
        conflictCond [[ 'F' ]] [([ 'F' ], [ 'Q' ])] [ 'P' ] [] [ 'F' ]) ∧
    installResult [[ 'F' ]]
        [([ 'Q' ], PackageLock.mk [ '1' ] none none [] [[ 'F' ]])] []
        ([] ++ InstallPkg.mk [ 'P' ] [ '1' ] [] none [] [[ 'F' ]] :: []) =
      .error ⟨[ 'P' ],
        (packageConflicts [[ 'F' ]]
          (buildOwnership [([ 'Q' ], PackageLock.mk [ '1' ] none none [] [[ 'F' ]])])
          [ 'P' ] []
          (applyResolutions ((dictGet ([] : List (List Char × RenameMap)) [ 'P' ]).getD [])
            [[ 'F' ]])).1⟩ :=
  ⟨install_collision_error.1 [[ 'F' ]] [([ 'F' ], [ 'Q' ])] [ 'P' ] [] [[ 'F' ]]
      (by decide) [ 'F' ],
    install_collision_error.2.1 [[ 'F' ]]
      [([ 'Q' ], PackageLock.mk [ '1' ] none none [] [[ 'F' ]])] [] []
      (InstallPkg.mk [ 'P' ] [ '1' ] [] none [] [[ 'F' ]]) [] [] []
      rfl (by decide)⟩

/-! ## Remove service (`services/remove.py`, steps 4–7)

The pure dependency-closure and pruning logic of `RemoveService.remove`,
with the resolved removal names, the project's current dependency strings
and the lockfile as explicit inputs. -/

/-- `dep.split(c)[0]`: the prefix before the first occurrence of a separator
character. -/
def cutAt (c : Char) (l : List Char) : List Char :=
  l.takeWhile (fun x => x ≠ c)

/-- Split around the first occurrence of a (nonempty) substring: Python
`pat in s` / `s.split(pat)[0]`. -/
def splitFirstSub (pat : List Char) : List Char → Option (List Char × List Char)
  | [] => if pat.isPrefixOf ([] : List Char) then some ([], []) else none
  | c :: rest =>
      if pat.isPrefixOf (c :: rest) then some ([], (c :: rest).drop pat.length)
      else
        match splitFirstSub pat rest with
        | some (b, a) => some (c :: b, a)
        | none => none

/-- `"@file:"` as characters. -/
def fileMarker : List Char := [ '@', 'f', 'i', 'l', 'e', ':' ]

/-- Step 5a, parsing a project dependency string to the package name to keep:
`name@file:path` keeps the part before `@file:`; otherwise the name is cut at
the first `@`, `=`, `>`, `<` in that order. -/
def depKeepName (dep : List Char) : List Char :=
  match splitFirstSub fileMarker dep with
  | some (before, _) => before
  | none => cutAt '<' (cutAt '>' (cutAt '=' (cutAt '@' dep)))

/-- Characters of the requirement-name class `[A-Za-z0-9_-]`. -/
def reqNameChar (c : Char) : Bool :=
  ('A' ≤ c ∧ c ≤ 'Z') ∨ ('a' ≤ c ∧ c ≤ 'z') ∨ ('0' ≤ c ∧ c ≤ '9') ∨
  c = '_' ∨ c = '-'

/-- Dependency-name extraction in the fixpoint loop: the regex
`^([A-Za-z0-9_-]+)(.*)$` keeps the maximal leading name run; if it cannot
match (first character outside the class, or empty string) the whole string
is used, as in the source's fallback branch. -/
def reqName (dep : List Char) : List Char :=
  let nm := dep.takeWhile reqNameChar
  if nm = [] then dep else nm

/-- Step 4: drop every current dependency string claimed by a removed
package (`dep == pkg`, `dep.startswith(pkg + "@")` or
`dep.startswith(pkg + "=")`). -/
def newDepsAfterRemove (currentDeps packages : List (List Char)) :
    List (List Char) :=
  currentDeps.filter (fun dep =>
    ¬ packages.any (fun pkg =>
      dep = pkg ∨ (pkg ++ [ '@' ]).isPrefixOf dep ∨ (pkg ++ [ '=' ]).isPrefixOf dep))

/-- `packages_to_keep.add(name)` on the Python set, observable only through
membership: add if absent. -/
def addIfAbsent (ks : List (List Char)) (x : List Char) : List (List Char) :=
  if x ∈ ks then ks else ks ++ [x]

/-- Step 5b seeds: the names of all remaining direct dependencies. -/
def keepSeeds (newDeps : List (List Char)) : List (List Char) :=
  newDeps.foldl (fun ks dep => addIfAbsent ks (depKeepName dep)) []

/-- The inner loop of one fixpoint pass: add each dependency name of a
retained package, flagging a change. -/
def addDeps (acc : List (List Char) × Bool) (deps : List (List Char)) :
    List (List Char) × Bool :=
  deps.foldl
    (fun acc2 dep =>
      let dn := reqName dep
      if dn ∈ acc2.1 then acc2 else (acc2.1 ++ [dn], true))
    acc

/-- One full pass of the `while changed` loop over the lockfile entries;
additions made earlier in the same pass are visible to later entries. -/
def passEntries : List (List Char × PackageLock) → (List (List Char) × Bool) →
    List (List Char) × Bool
  | [], acc => acc
  | (pname, plock) :: rest, acc =>
      passEntries rest (if pname ∈ acc.1 then addDeps acc plock.dependencies else acc)

/-- Iterate passes until no pass adds a name.  The Python loop is unbounded;
each changed pass adds at least one new name drawn from the lockfile's
dependency names, so the fuel chosen in `removeCore` is proved sufficient
(`loopKeep_fix`). -/
def loopKeep (lock : Lockfile) : Nat → List (List Char) → List (List Char)
  | 0, keep => keep
  | fuel + 1, keep =>
      let res := passEntries lock (keep, false)
      if res.2 then loopKeep lock fuel res.1 else res.1

/-- All dependency names mentioned anywhere in the lockfile. -/
def allDepNames (lock : Lockfile) : List (List Char) :=
  (lock.map (fun e => e.2.dependencies.map reqName)).flatten

/-- The observable outcome of `RemoveService.remove` steps 4–7. -/
structure RemoveResult where
  newDeps : List (List Char)
  keep : List (List Char)
  removedPackages : List (List Char)
  deletedFunctions : List (List Char)
  newLockfile : Lockfile
  deriving DecidableEq, Repr

/-- Steps 4–7 of `RemoveService.remove`: recompute the dependency list, seed
the keep set from it, close it over lockfile-declared dependencies, and prune
every lockfile package outside the closure, deleting its owned functions. -/
def removeCore (currentDeps packages : List (List Char)) (lock : Lockfile) :
    RemoveResult :=
  let newDeps := newDepsAfterRemove currentDeps packages
  let keep := loopKeep lock ((allDepNames lock).dedup.length + 1) (keepSeeds newDeps)
  let removed := (lock.map Prod.fst).filter (fun n => n ∉ keep)
  RemoveResult.mk newDeps keep removed
    ((lock.filter (fun e => e.1 ∉ keep)).map (fun e => e.2.functions)).flatten
    (lock.filter (fun e => e.1 ∈ keep))

theorem addDeps_spec (deps : List (List Char)) :
    ∀ acc : List (List Char) × Bool,
      ∃ ext, (addDeps acc deps).1 = acc.1 ++ ext ∧
        (addDeps acc deps).2 = (acc.2 || !ext.isEmpty) ∧
        (∀ x ∈ ext, x ∈ deps.map reqName ∧ x ∉ acc.1) ∧ ext.Nodup := by
  induction deps with
  | nil =>
      intro acc
      exact ⟨[], by simp [addDeps]⟩
  | cons dep rest ih =>
      intro acc
      rw [show addDeps acc (dep :: rest) =
        addDeps (if reqName dep ∈ acc.1 then acc
          else (acc.1 ++ [reqName dep], true)) rest from rfl]
      by_cases hd : reqName dep ∈ acc.1
      · rw [if_pos hd]
        obtain ⟨ext, h1, h2, h3, h4⟩ := ih acc
        exact ⟨ext, h1, h2,
          fun x hx => ⟨List.mem_cons_of_mem _ ((h3 x hx).1), (h3 x hx).2⟩, h4⟩
      · rw [if_neg hd]
        obtain ⟨ext, h1, h2, h3, h4⟩ := ih (acc.1 ++ [reqName dep], true)
        refine ⟨reqName dep :: ext, ?_, ?_, ?_, ?_⟩
        · rw [h1]
          simp
        · rw [h2]
          simp
        · intro x hx
          rcases List.mem_cons.mp hx with rfl | hx2
          · exact ⟨List.mem_cons_self _ _, hd⟩
          · have := h3 x hx2
            simp only [List.mem_append, List.mem_singleton, not_or] at this
            exact ⟨List.mem_cons_of_mem _ this.1, this.2.1⟩
        · rw [List.nodup_cons]
          refine ⟨fun hx => ?_, h4⟩
          have := (h3 _ hx).2
          simp at this

theorem passEntries_spec (entries : List (List Char × PackageLock)) :
    ∀ acc : List (List Char) × Bool,
      ∃ ext, (passEntries entries acc).1 = acc.1 ++ ext ∧
        (passEntries entries acc).2 = (acc.2 || !ext.isEmpty) ∧
        (∀ x ∈ ext, x ∈ allDepNames entries ∧ x ∉ acc.1) ∧ ext.Nodup := by
  induction entries with
  | nil =>
      intro acc
      exact ⟨[], by simp [passEntries]⟩
  | cons e rest ih =>
      intro acc
      obtain ⟨pname, plock⟩ := e
      rw [show passEntries ((pname, plock) :: rest) acc =
        passEntries rest
          (if pname ∈ acc.1 then addDeps acc plock.dependencies else acc) from rfl]
      by_cases hp : pname ∈ acc.1
      · rw [if_pos hp]
        obtain ⟨e1, a1, a2, a3, a4⟩ := addDeps_spec plock.dependencies acc
        obtain ⟨e2, b1, b2, b3, b4⟩ := ih (addDeps acc plock.dependencies)
        refine ⟨e1 ++ e2, ?_, ?_, ?_, ?_⟩
        · rw [b1, a1, List.append_assoc]
        · rw [b2, a2]
          cases e1 <;> simp [Bool.or_assoc]
        · intro x hx
          rcases List.mem_append.mp hx with hx1 | hx2
          · refine ⟨?_, (a3 x hx1).2⟩
            simp only [allDepNames, List.map_cons, List.flatten_cons,
              List.mem_append]
            exact Or.inl ((a3 x hx1).1)
          · have hb := b3 x hx2
            rw [a1] at hb
            simp only [List.mem_append, not_or] at hb
            refine ⟨?_, hb.2.1⟩
            simp only [allDepNames, List.map_cons, List.flatten_cons,
              List.mem_append]
            exact Or.inr hb.1
        · rw [List.nodup_append]
          refine ⟨a4, b4, fun x hx1 hx2 => ?_⟩
          have hb := b3 x hx2
          rw [a1] at hb
          simp only [List.mem_append, not_or] at hb
          exact hb.2.2 hx1
      · rw [if_neg hp]
        obtain ⟨ext, h1, h2, h3, h4⟩ := ih acc
        refine ⟨ext, h1, h2, fun x hx => ⟨?_, (h3 x hx).2⟩, h4⟩
        simp only [allDepNames, List.map_cons, List.flatten_cons, List.mem_append]
        exact Or.inr ((h3 x hx).1)

theorem passEntries_false (entries : List (List Char × PackageLock))
    (acc : List (List Char) × Bool)
    (h : (passEntries entries acc).2 = false) :
    acc.2 = false ∧ (passEntries entries acc).1 = acc.1 := by
  obtain ⟨ext, h1, h2, _, _⟩ := passEntries_spec entries acc
  rw [h] at h2
  have h2s := h2.symm
  rw [Bool.or_eq_false_iff] at h2s
  obtain ⟨ha, hb⟩ := h2s
  have hext : ext = [] := by
    cases ext with
    | nil => rfl
    | cons x xs => simp at hb
  refine ⟨ha, ?_⟩
  rw [h1, hext, List.append_nil]

theorem addDeps_closed (deps : List (List Char)) :
    ∀ (ks : List (List Char)) (b : Bool),
      (addDeps (ks, b) deps).1 = ks → ∀ dep ∈ deps, reqName dep ∈ ks := by
  induction deps with
  | nil => intro ks b _ dep hdep; simp at hdep
  | cons d rest ih =>
      intro ks b hks dep hdep
      rw [show addDeps (ks, b) (d :: rest) =
        addDeps (if reqName d ∈ ks then (ks, b)
          else (ks ++ [reqName d], true)) rest from rfl] at hks
      by_cases hd : reqName d ∈ ks
      · rw [if_pos hd] at hks
        rcases List.mem_cons.mp hdep with rfl | hr
        · exact hd
        · exact ih ks b hks dep hr
      · rw [if_neg hd] at hks
        obtain ⟨ext, h1, _, _, _⟩ := addDeps_spec rest (ks ++ [reqName d], true)
        rw [h1] at hks
        have : ks.length = ks.length + 1 + ext.length := by
          have := congrArg List.length hks
          simpa [List.length_append] using this.symm
        omega

theorem passEntries_closed (entries : List (List Char × PackageLock)) :
    ∀ keep : List (List Char),
      (passEntries entries (keep, false)).2 = false →
      ∀ e ∈ entries, e.1 ∈ keep → ∀ dep ∈ e.2.dependencies,
        reqName dep ∈ keep := by
  induction entries with
  | nil => intro keep _ e he; simp at he
  | cons x rest ih =>
      intro keep hfix e he hek dep hdep
      obtain ⟨pname, plock⟩ := x
      rw [show passEntries ((pname, plock) :: rest) (keep, false) =
        passEntries rest
          (if pname ∈ keep then addDeps (keep, false) plock.dependencies
            else (keep, false)) from rfl] at hfix
      by_cases hp : pname ∈ keep
      · rw [if_pos hp] at hfix
        have hacc := passEntries_false rest _ hfix
        have hflag : (addDeps (keep, false) plock.dependencies).2 = false := hacc.1
        obtain ⟨ext, h1, h2, _, _⟩ := addDeps_spec plock.dependencies (keep, false)
        rw [hflag] at h2
        have h2s := h2.symm
        rw [Bool.or_eq_false_iff] at h2s
        have hext : ext = [] := by
          cases ext with
          | nil => rfl
          | cons y ys => simp at h2s
        have hkeep1 : (addDeps (keep, false) plock.dependencies).1 = keep := by
          rw [h1, hext, List.append_nil]
        have haddeq : addDeps (keep, false) plock.dependencies = (keep, false) := by
          have := Prod.mk.eta (p := addDeps (keep, false) plock.dependencies)
          rw [← this, hkeep1, hflag]
        rcases List.mem_cons.mp he with rfl | her
        · exact addDeps_closed plock.dependencies keep false hkeep1 dep hdep
        · rw [haddeq] at hfix
          exact ih keep hfix e her hek dep hdep
      · rw [if_neg hp] at hfix
        rcases List.mem_cons.mp he with rfl | her
        · exact absurd hek hp
        · exact ih keep hfix e her hek dep hdep

theorem addDeps_subset (S : Set (List Char)) (deps : List (List Char)) :
    ∀ acc : List (List Char) × Bool,
      (∀ dep ∈ deps, reqName dep ∈ S) → (∀ x ∈ acc.1, x ∈ S) →
      ∀ x ∈ (addDeps acc deps).1, x ∈ S := by
  induction deps with
  | nil => intro acc _ hacc x hx; exact hacc x hx
  | cons d rest ih =>
      intro acc hdeps hacc x hx
      rw [show addDeps acc (d :: rest) =
        addDeps (if reqName d ∈ acc.1 then acc
          else (acc.1 ++ [reqName d], true)) rest from rfl] at hx
      by_cases hd : reqName d ∈ acc.1
      · rw [if_pos hd] at hx
        exact ih acc (fun dep h => hdeps dep (List.mem_cons_of_mem _ h)) hacc x hx
      · rw [if_neg hd] at hx
        refine ih _ (fun dep h => hdeps dep (List.mem_cons_of_mem _ h)) ?_ x hx
        intro y hy
        rcases List.mem_append.mp hy with hy1 | hy2
        · exact hacc y hy1
        · rw [List.mem_singleton.mp hy2]
          exact hdeps d (List.mem_cons_self _ _)

theorem passEntries_subset (S : Set (List Char))
    (entries : List (List Char × PackageLock)) :
    ∀ acc : List (List Char) × Bool,
      (∀ e ∈ entries, e.1 ∈ S → ∀ dep ∈ e.2.dependencies, reqName dep ∈ S) →
      (∀ x ∈ acc.1, x ∈ S) →
      ∀ x ∈ (passEntries entries acc).1, x ∈ S := by
  induction entries with
  | nil => intro acc _ hacc x hx; exact hacc x hx
  | cons e rest ih =>
      intro acc hcl hacc x hx
      obtain ⟨pname, plock⟩ := e
      rw [show passEntries ((pname, plock) :: rest) acc =
        passEntries rest
          (if pname ∈ acc.1 then addDeps acc plock.dependencies else acc)
          from rfl] at hx
      have hclr : ∀ e ∈ rest, e.1 ∈ S → ∀ dep ∈ e.2.dependencies,
          reqName dep ∈ S :=
        fun e he => hcl e (List.mem_cons_of_mem _ he)
      by_cases hp : pname ∈ acc.1
      · rw [if_pos hp] at hx
        refine ih _ hclr ?_ x hx
        exact addDeps_subset S plock.dependencies acc
          (hcl (pname, plock) (List.mem_cons_self _ _) (hacc pname hp)) hacc
      · rw [if_neg hp] at hx
        exact ih acc hclr hacc x hx

theorem loopKeep_grows (lock : Lockfile) :
    ∀ (fuel : Nat) (keep : List (List Char)),
      ∃ ext, loopKeep lock fuel keep = keep ++ ext := by
  intro fuel
  induction fuel with
  | zero => intro keep; exact ⟨[], by simp [loopKeep]⟩
  | succ n ih =>
      intro keep
      rw [loopKeep]
      obtain ⟨ext, h1, _, _, _⟩ := passEntries_spec lock (keep, false)
      by_cases hch : (passEntries lock (keep, false)).2
      · rw [if_pos hch]
        obtain ⟨ext2, h2⟩ := ih (passEntries lock (keep, false)).1
        rw [h2, h1, List.append_assoc]
        exact ⟨ext ++ ext2, rfl⟩
      · rw [if_neg hch, h1]
        exact ⟨ext, rfl⟩

theorem loopKeep_subset (lock : Lockfile) (S : Set (List Char))
    (hcl : ∀ e ∈ lock, e.1 ∈ S → ∀ dep ∈ e.2.dependencies, reqName dep ∈ S) :
    ∀ (fuel : Nat) (keep : List (List Char)), (∀ x ∈ keep, x ∈ S) →
      ∀ x ∈ loopKeep lock fuel keep, x ∈ S := by
  intro fuel
  induction fuel with
  | zero => intro keep hk x hx; rw [loopKeep] at hx; exact hk x hx
  | succ n ih =>
      intro keep hk x hx
      rw [loopKeep] at hx
      by_cases hch : (passEntries lock (keep, false)).2
      · rw [if_pos hch] at hx
        exact ih _ (passEntries_subset S lock (keep, false) hcl hk) x hx
      · rw [if_neg hch] at hx
        exact passEntries_subset S lock (keep, false) hcl hk x hx

/-- Fuel-sufficiency: with more fuel than the number of distinct lockfile
dependency names missing from the seed, the loop reaches a fixpoint. -/
theorem loopKeep_fix (lock : Lockfile) :
    ∀ (fuel : Nat) (keep : List (List Char)),
      ((allDepNames lock).toFinset \ keep.toFinset).card < fuel →
      (passEntries lock (loopKeep lock fuel keep, false)).2 = false := by
  intro fuel
  induction fuel with
  | zero => intro keep h; omega
  | succ n ih =>
      intro keep hcard
      rw [loopKeep]
      by_cases hch : (passEntries lock (keep, false)).2
      · rw [if_pos hch]
        obtain ⟨ext, h1, h2, h3, _⟩ := passEntries_spec lock (keep, false)
        have hextne : ext ≠ [] := by
          intro he
          rw [hch, he] at h2
          simp at h2
        obtain ⟨x0, hx0⟩ := List.exists_mem_of_ne_nil ext hextne
        have hx0u : x0 ∈ (allDepNames lock).toFinset :=
          List.mem_toFinset.mpr ((h3 x0 hx0).1)
        have hx0k : x0 ∉ keep.toFinset :=
          fun h => (h3 x0 hx0).2 (List.mem_toFinset.mp h)
        have hx0r : x0 ∈ (passEntries lock (keep, false)).1.toFinset := by
          rw [h1]
          exact List.mem_toFinset.mpr (List.mem_append.mpr (Or.inr hx0))
        apply ih
        have hss : (allDepNames lock).toFinset \
            (passEntries lock (keep, false)).1.toFinset ⊂
            (allDepNames lock).toFinset \ keep.toFinset := by
          rw [Finset.ssubset_iff_of_subset]
          · exact ⟨x0, Finset.mem_sdiff.mpr ⟨hx0u, hx0k⟩,
              fun h => (Finset.mem_sdiff.mp h).2 hx0r⟩
          · apply Finset.sdiff_subset_sdiff (le_refl _)
            intro y hy
            rw [h1] at *
            rcases List.mem_toFinset.mp hy with hy2
            exact List.mem_toFinset.mpr (List.mem_append.mpr (Or.inl hy2))
        have := Finset.card_lt_card hss
        omega
      · rw [if_neg hch]
        rw [(passEntries_false lock (keep, false) (by simpa using hch)).2]
        simpa using hch

theorem keepSeeds_mem (newDeps : List (List Char)) :
    ∀ d ∈ newDeps, depKeepName d ∈ keepSeeds newDeps := by
  have haux : ∀ (l : List (List Char)) (ks : List (List Char)),
      (∀ x ∈ ks, x ∈ l.foldl (fun ks dep => addIfAbsent ks (depKeepName dep)) ks) ∧
      (∀ d ∈ l, depKeepName d ∈
        l.foldl (fun ks dep => addIfAbsent ks (depKeepName dep)) ks) := by
    intro l
    induction l with
    | nil => intro ks; exact ⟨fun x hx => hx, fun d hd => by simp at hd⟩
    | cons d rest ih =>
        intro ks
        simp only [List.foldl_cons]
        have hmono : ∀ x ∈ addIfAbsent ks (depKeepName d),
            x ∈ rest.foldl (fun ks dep => addIfAbsent ks (depKeepName dep))
              (addIfAbsent ks (depKeepName d)) :=
          (ih (addIfAbsent ks (depKeepName d))).1
        constructor
        · intro x hx
          apply hmono
          rw [addIfAbsent]
          split
          · exact hx
          · exact List.mem_append.mpr (Or.inl hx)
        · intro e he
          rcases List.mem_cons.mp he with rfl | her
          · apply hmono
            rw [addIfAbsent]
            split
            · assumption
            · exact List.mem_append.mpr (Or.inr (List.mem_singleton.mpr rfl))
          · exact (ih (addIfAbsent ks (depKeepName d))).2 e her
  intro d hd
  exact (haux newDeps []).2 d hd

theorem keepSeeds_subset (S : Set (List Char)) (newDeps : List (List Char))
    (h : ∀ d ∈ newDeps, depKeepName d ∈ S) :
    ∀ x ∈ keepSeeds newDeps, x ∈ S := by
  have haux : ∀ (l : List (List Char)) (ks : List (List Char)),
      (∀ d ∈ l, depKeepName d ∈ S) → (∀ x ∈ ks, x ∈ S) →
      ∀ x ∈ l.foldl (fun ks dep => addIfAbsent ks (depKeepName dep)) ks,
        x ∈ S := by
    intro l
    induction l with
    | nil => intro ks _ hks x hx; exact hks x hx
    | cons d rest ih =>
        intro ks hl hks x hx
        simp only [List.foldl_cons] at hx
        refine ih _ (fun e he => hl e (List.mem_cons_of_mem _ he)) ?_ x hx
        intro y hy
        rw [addIfAbsent] at hy
        split at hy
        · exact hks y hy
        · rcases List.mem_append.mp hy with hy1 | hy2
          · exact hks y hy1
          · rw [List.mem_singleton.mp hy2]
            exact hl d (List.mem_cons_self _ _)
  exact haux newDeps [] h (fun x hx => by simp at hx)

/-- The spec's A/B/C removal scenario: `A` is project-direct with
dependencies `B` and `C`, `B` is only reachable through `A`, `C` is also
project-direct. -/
def removeExampleLock : Lockfile :=
  [([ 'A' ], PackageLock.mk [ '1' ] none none [[ 'B' ], [ 'C' ]] [[ 'f', 'a' ]]),
   ([ 'B' ], PackageLock.mk [ '1' ] none none [] [[ 'f', 'b' ]]),
   ([ 'C' ], PackageLock.mk [ '1' ] none none [] [[ 'f', 'c' ]])]

/-- C4: the retained set of `remove` is the least fixpoint of the
direct-dependency seeds under the lockfile's declared-dependency edges
(seeded, closed, and minimal); every lockfile package outside it has its
entry removed and its functions deleted, and a package directly required by
the project keeps its lockfile entry; removing `A` prunes the orphaned
dependency `B` but retains the still-direct `C`. -/
theorem remove_fixpoint_pruning (currentDeps packages : List (List Char))
    (lock : Lockfile) (r : RemoveResult)
    (hr : r = removeCore currentDeps packages lock) :
    (∀ d ∈ r.newDeps, depKeepName d ∈ r.keep) ∧
      (∀ e ∈ lock, e.1 ∈ r.keep → ∀ dep ∈ e.2.dependencies,
        reqName dep ∈ r.keep) ∧
      (∀ S : Set (List Char),
        (∀ d ∈ r.newDeps, depKeepName d ∈ S) →
        (∀ e ∈ lock, e.1 ∈ S → ∀ dep ∈ e.2.dependencies, reqName dep ∈ S) →
        ∀ x ∈ r.keep, x ∈ S) ∧
      r.newLockfile = lock.filter (fun e => e.1 ∈ r.keep) ∧
      r.removedPackages = (lock.map Prod.fst).filter (fun n => n ∉ r.keep) ∧
      r.deletedFunctions =
        ((lock.filter (fun e => e.1 ∉ r.keep)).map
          (fun e => e.2.functions)).flatten ∧
      (∀ d ∈ r.newDeps, ∀ e ∈ lock, e.1 = depKeepName d → e ∈ r.newLockfile) ∧
      removeCore [[ 'A' ], [ 'C' ]] [[ 'A' ]] removeExampleLock =
        RemoveResult.mk [[ 'C' ]] [[ 'C' ]] [[ 'A' ], [ 'B' ]]
          [[ 'f', 'a' ], [ 'f', 'b' ]]
          [([ 'C' ], PackageLock.mk [ '1' ] none none [] [[ 'f', 'c' ]])] := by
  subst hr
  have hfuel : ((allDepNames lock).toFinset \
      (keepSeeds (newDepsAfterRemove currentDeps packages)).toFinset).card <
      (allDepNames lock).dedup.length + 1 := by
    have h1 : ((allDepNames lock).toFinset \
        (keepSeeds (newDepsAfterRemove currentDeps packages)).toFinset).card ≤
        (allDepNames lock).toFinset.card :=
      Finset.card_le_card (Finset.sdiff_subset)
    rw [List.card_toFinset] at h1
    omega
  have hfix := loopKeep_fix lock ((allDepNames lock).dedup.length + 1)
    (keepSeeds (newDepsAfterRemove currentDeps packages)) hfuel
  refine ⟨?_, ?_, ?_, rfl, rfl, rfl, ?_, by rfl⟩
  · intro d hd
    obtain ⟨ext, hext⟩ := loopKeep_grows lock ((allDepNames lock).dedup.length + 1)
      (keepSeeds (newDepsAfterRemove currentDeps packages))
    show depKeepName d ∈ loopKeep lock _ _
    rw [hext]
    exact List.mem_append.mpr (Or.inl (keepSeeds_mem _ d hd))
  · intro e he hek dep hdep
    exact passEntries_closed lock _ hfix e he hek dep hdep
  · intro S hseed hcl x hx
    refine loopKeep_subset lock S hcl _ _ ?_ x hx
    exact keepSeeds_subset S _ hseed
  · intro d hd e he he1
    show e ∈ List.filter _ lock
    rw [List.mem_filter]
    refine ⟨he, ?_⟩
    obtain ⟨ext, hext⟩ := loopKeep_grows lock ((allDepNames lock).dedup.length + 1)
      (keepSeeds (newDepsAfterRemove currentDeps packages))
    have : e.1 ∈ loopKeep lock ((allDepNames lock).dedup.length + 1)
        (keepSeeds (newDepsAfterRemove currentDeps packages)) := by
      rw [hext, he1]
      exact List.mem_append.mpr (Or.inl (keepSeeds_mem _ d hd))
    simpa using this

/-- Witness for `remove_fixpoint_pruning`: the direct dependency `C` of the
spec's scenario lands in the retained set and its lockfile entry survives. -/
theorem remove_fixpoint_pruning_witness :
    depKeepName [ 'C' ] ∈
        (removeCore [[ 'A' ], [ 'C' ]] [[ 'A' ]] removeExampleLock).keep ∧
      ([ 'C' ], PackageLock.mk [ '1' ] none none [] [[ 'f', 'c' ]]) ∈
        (removeCore [[ 'A' ], [ 'C' ]] [[ 'A' ]] removeExampleLock).newLockfile :=
  ⟨(remove_fixpoint_pruning [[ 'A' ], [ 'C' ]] [[ 'A' ]] removeExampleLock _ rfl).1
      [ 'C' ] (by decide),
    (remove_fixpoint_pruning [[ 'A' ], [ 'C' ]] [[ 'A' ]] removeExampleLock _
        rfl).2.2.2.2.2.2.1
      [ 'C' ] (by decide)
      ([ 'C' ], PackageLock.mk [ '1' ] none none [] [[ 'f', 'c' ]])
      (by decide) (by decide)⟩

/-! ## Exclusive ownership (C6) -/

/-- The lockfile invariant: no function name is owned by two entries of
different packages. -/
def exclusive (lf : Lockfile) : Prop :=
  ∀ e1 ∈ lf, ∀ e2 ∈ lf, e1.1 ≠ e2.1 → ∀ f ∈ e1.2.functions, f ∉ e2.2.functions

instance exclusiveDecidable (lf : Lockfile) : Decidable (exclusive lf) :=
  inferInstanceAs (Decidable (∀ e1 ∈ lf, ∀ e2 ∈ lf, e1.1 ≠ e2.1 →
    ∀ f ∈ e1.2.functions, f ∉ e2.2.functions))

theorem mem_installLockfile :
    ∀ (items : List (InstallPkg × List (List Char))) (lf : Lockfile)
      (e : List Char × PackageLock), e ∈ installLockfile items lf →
      e ∈ lf ∨ ∃ pf ∈ items,
        e = (pf.1.name, PackageLock.mk pf.1.version (some pf.1.resolved)
          pf.1.integrity pf.1.dependencies pf.2) := by
  intro items
  induction items with
  | nil =>
      intro lf e he
      exact Or.inl he
  | cons pf rest ih =>
      intro lf e he
      obtain ⟨pkg, fns⟩ := pf
      rw [show installLockfile ((pkg, fns) :: rest) lf =
        installLockfile rest (dictSet lf pkg.name
          (PackageLock.mk pkg.version (some pkg.resolved) pkg.integrity
            pkg.dependencies fns)) from rfl] at he
      rcases ih _ e he with hd | ⟨pf2, hpf2, heq⟩
      · rcases mem_dictSet _ _ _ _ hd with h1 | h1
        · exact Or.inl h1
        · exact Or.inr ⟨(pkg, fns), List.mem_cons_self _ _, h1⟩
      · exact Or.inr ⟨pf2, List.mem_cons_of_mem _ hpf2, heq⟩

/-- C6: exclusive ownership is an invariant — from a lockfile in which every
function name is owned by at most one package entry, a successful install
produces a lockfile in which each entry's functions come from exactly one
processed package and distinct packages were checked disjoint, and a remove
produces a sub-lockfile of the previous one; both are again exclusive. -/
theorem lockfile_ownership_exclusive
    (existing : List (List Char)) (prev : Lockfile)
    (resolutions : List (List Char × RenameMap)) (pkgs : List InstallPkg)
    (currentDeps packages : List (List Char)) (lock : Lockfile)
    (_hprev : exclusive prev) (hlock : exclusive lock)
    (hnd : ∀ p ∈ pkgs, p.functions.Nodup) :
    (∀ newLf, installResult existing prev resolutions pkgs = .ok newLf →
        exclusive newLf) ∧
      exclusive (removeCore currentDeps packages lock).newLockfile := by
  constructor
  · intro newLf hok
    rw [installResult] at hok
    cases hp : processPackages existing (buildOwnership prev) resolutions pkgs []
      with
    | error e => rw [hp] at hok; cases hok
    | ok pr =>
        obtain ⟨processed, nmF⟩ := pr
        rw [hp] at hok
        cases hok
        intro e1 he1 e2 he2 hne f hf1 hf2
        rcases mem_installLockfile processed [] e1 he1 with h1 | ⟨pf1, hpf1, heq1⟩
        · simp at h1
        · rcases mem_installLockfile processed [] e2 he2 with h2 | ⟨pf2, hpf2, heq2⟩
          · simp at h2
          · have hnepf : pf1.1.name ≠ pf2.1.name := by
              intro h
              apply hne
              rw [heq1, heq2, h]
            refine processPackages_disjoint existing (buildOwnership prev)
              resolutions pkgs [] processed nmF hnd hp pf1 hpf1 pf2 hpf2 hnepf
              f ?_ ?_
            · rw [heq1] at hf1
              exact hf1
            · rw [heq2] at hf2
              exact hf2
  · intro e1 he1 e2 he2 hne f hf1 hf2
    have h1 : e1 ∈ lock := (List.mem_filter.mp he1).1
    have h2 : e2 ∈ lock := (List.mem_filter.mp he2).1
    exact hlock e1 h1 e2 h2 hne f hf1 hf2

/-- Witness for `lockfile_ownership_exclusive` at a concrete successful
install over an exclusive starting lockfile and a concrete removal. -/
theorem lockfile_ownership_exclusive_witness :
    exclusive [([ 'P' ], PackageLock.mk [ '1' ] (some []) none [] [[ 'F' ]])] ∧
      exclusive (removeCore [[ 'A' ], [ 'C' ]] [[ 'A' ]]
        removeExampleLock).newLockfile :=
  ⟨(lockfile_ownership_exclusive [] [] []
      [InstallPkg.mk [ 'P' ] [ '1' ] [] none [] [[ 'F' ]]]
      [] [] [] (by decide) (by decide) (by decide)).1
      [([ 'P' ], PackageLock.mk [ '1' ] (some []) none [] [[ 'F' ]])] rfl,
    (lockfile_ownership_exclusive [] [] [] [] [[ 'A' ], [ 'C' ]] [[ 'A' ]]
      removeExampleLock (by decide) (by decide) (by decide)).2⟩

/-! ## Resolution (`resolution/provider.py`, `resolution/resolver.py`)

`find_matches` is embedded from the source.  Version parsing and specifier
matching live in the external `packaging` library; they are modelled from
the spec ("Equality/ordering on `version` uses semantic-version precedence";
"specifier is a (possibly empty) version-range expression; empty matches any
version") for the dotted numeric versions the claims exercise.  The
backtracking search itself is the external `resolvelib` library; it is
modelled from the spec §4.1. -/

/-- Split a string on a separator character (`str.split`). -/
def splitOn (sep : Char) : List Char → List (List Char)
  | [] => [[]]
  | c :: rest =>
      if c = sep then [] :: splitOn sep rest
      else
        match splitOn sep rest with
        | seg :: segs => (c :: seg) :: segs
        | [] => [[c]]

/-- Decimal value of a digit run. -/
def natOfDigits (l : List Char) : Nat :=
  l.foldl (fun a c => a * 10 + (c.toNat - ('0').toNat)) 0

/-- Modelled from the spec: `packaging.version.Version` (external library)
restricted to dotted numeric releases — the release tuple of the version
string. -/
def parseVersion (v : List Char) : List Nat :=
  (splitOn '.' v).map natOfDigits

/-- Modelled from the spec: semantic-version precedence on release tuples —
lexicographic comparison with implicit zero-padding of the shorter tuple, as
`packaging` compares releases. -/
def verLt : List Nat → List Nat → Bool
  | [], [] => false
  | [], y :: ys => if 0 < y then true else verLt [] ys
  | _ :: _, [] => false
  | x :: xs, y :: ys =>
      if x < y then true else if y < x then false else verLt xs ys

theorem verLt_nil_right : ∀ a, verLt a [] = false := by
  intro a
  cases a <;> rfl

theorem verLt_nil_left (b : List Nat) :
    verLt [] b = b.any (fun y => decide (0 < y)) := by
  induction b with
  | nil => rfl
  | cons y ys ih =>
      by_cases h : 0 < y
      · simp [verLt, h]
      · simp [verLt, h, ih]

theorem verLt_allzero_right : ∀ (a b : List Nat),
    b.any (fun y => decide (0 < y)) = false → verLt a b = false := by
  intro a
  induction a with
  | nil =>
      intro b hb
      rw [verLt_nil_left, hb]
  | cons x xs ih =>
      intro b hb
      cases b with
      | nil => exact verLt_nil_right _
      | cons y ys =>
          simp only [List.any_cons, Bool.or_eq_false_iff, decide_eq_false_iff_not,
            Nat.not_lt, Nat.le_zero] at hb
          obtain ⟨hy, hys⟩ := hb
          subst hy
          simp only [verLt]
          rw [if_neg (by omega)]
          by_cases hx : 0 < x
          · rw [if_pos hx]
          · rw [if_neg hx]
            exact ih ys (by simpa using hys)

theorem verLt_zero_lt : ∀ (a b : List Nat),
    a.any (fun y => decide (0 < y)) = false →
    b.any (fun y => decide (0 < y)) = true → verLt a b = true := by
  intro a
  induction a with
  | nil =>
      intro b _ hb
      rw [verLt_nil_left, hb]
  | cons x xs ih =>
      intro b ha hb
      simp only [List.any_cons, Bool.or_eq_false_iff, decide_eq_false_iff_not,
        Nat.not_lt, Nat.le_zero] at ha
      obtain ⟨hx, hxs⟩ := ha
      subst hx
      cases b with
      | nil => simp at hb
      | cons y ys =>
          simp only [verLt]
          by_cases hy : 0 < y
          · rw [if_pos hy]
          · rw [if_neg hy, if_neg (by omega)]
            have hy0 : y = 0 := by omega
            subst hy0
            simp only [List.any_cons, decide_eq_true_eq] at hb
            rcases Bool.or_eq_true_iff.mp hb with h1 | h1
            · simp at h1
            · exact ih ys (by simpa using hxs) h1

theorem verLt_asymm : ∀ (a b : List Nat), verLt a b = true → verLt b a = false := by
  intro a
  induction a with
  | nil =>
      intro b _
      exact verLt_nil_right _
  | cons x xs ih =>
      intro b hab
      cases b with
      | nil => rw [verLt_nil_right] at hab; cases hab
      | cons y ys =>
          simp only [verLt] at hab ⊢
          by_cases hxy : x < y
          · rw [if_neg (by omega), if_pos hxy]
          · rw [if_neg hxy] at hab
            by_cases hyx : y < x
            · rw [if_pos hyx] at hab
              cases hab
            · rw [if_neg hyx] at hab
              rw [if_neg hyx, if_neg hxy]
              exact ih ys hab

theorem verLt_negtrans : ∀ (a b c : List Nat),
    verLt a b = false → verLt b c = false → verLt a c = false := by
  intro a
  induction a with
  | nil =>
      intro b c hab hbc
      rw [verLt_nil_left] at hab ⊢
      by_cases hc : c.any (fun y => decide (0 < y))
      · exact absurd (verLt_zero_lt b c hab hc) (by rw [hbc]; simp)
      · simpa using hc
  | cons x xs ih =>
      intro b c hab hbc
      cases c with
      | nil => exact verLt_nil_right _
      | cons z zs =>
          cases b with
          | nil =>
              rw [verLt_nil_left] at hbc
              exact verLt_allzero_right _ _ hbc
          | cons y ys =>
              simp only [verLt] at hab hbc ⊢
              by_cases hxy : x < y
              · rw [if_pos hxy] at hab; cases hab
              · rw [if_neg hxy] at hab
                by_cases hyz : y < z
                · rw [if_pos hyz] at hbc; cases hbc
                · rw [if_neg hyz] at hbc
                  by_cases hyx : y < x
                  · rw [if_neg (by omega), if_pos (by
                      by_cases hzy : z < y
                      · omega
                      · rw [if_neg hzy] at hbc
                        omega)]
                  · rw [if_neg hyx] at hab
                    have hxyeq : x = y := by omega
                    subst hxyeq
                    by_cases hzy : z < x
                    · rw [if_neg (by omega), if_pos hzy]
                    · rw [if_neg hzy] at hbc
                      have hzx : z = x := by omega
                      subst hzx
                      rw [if_neg (by omega), if_neg (by omega)]
                      exact ih ys zs hab hbc

theorem verLt_strict_trans (a b c : List Nat)
    (hab : verLt a b = true) (hbc : verLt b c = true) : verLt a c = true := by
  by_cases hac : verLt a c = true
  · exact hac
  · have hac2 : verLt a c = false := by simpa using hac
    have hcb : verLt c b = false := verLt_asymm b c hbc
    have := verLt_negtrans a c b hac2 hcb
    rw [hab] at this
    cases this

/-- `Dependency` (pydantic model): name and raw specifier string. -/
structure Dependency where
  name : List Char
  specifier : List Char
  deriving DecidableEq, Repr

/-- `Package` (pydantic model), as built by `find_matches`
(`Package(name=identifier, version=v)`, dependencies filled in later by
`get_dependencies`). -/
structure Package where
  name : List Char
  version : List Char
  dependencies : List (List Char)
  deriving DecidableEq, Repr

/-- Python `str.strip()` restricted to spaces (the claims exercise no other
whitespace inside requirement strings). -/
def stripSpaces (l : List Char) : List Char :=
  ((l.dropWhile (fun c => c = ' ')).reverse.dropWhile (fun c => c = ' ')).reverse

/-- Modelled from the spec: one clause of the external
`packaging.SpecifierSet` — an operator prefix and a version bound. -/
def specClauseHolds (clause : List Char) (v : List Nat) : Bool :=
  let c := stripSpaces clause
  if c = [] then true
  else if [ '>', '=' ].isPrefixOf c then ! verLt v (parseVersion (c.drop 2))
  else if [ '<', '=' ].isPrefixOf c then ! verLt (parseVersion (c.drop 2)) v
  else if [ '=', '=' ].isPrefixOf c then
    ! verLt v (parseVersion (c.drop 2)) && ! verLt (parseVersion (c.drop 2)) v
  else if [ '!', '=' ].isPrefixOf c then
    verLt v (parseVersion (c.drop 2)) || verLt (parseVersion (c.drop 2)) v
  else if [ '>' ].isPrefixOf c then verLt (parseVersion (c.drop 1)) v
  else if [ '<' ].isPrefixOf c then verLt v (parseVersion (c.drop 1))
  else true

/-- Modelled from the spec: `packaging.SpecifierSet` membership — a
(possibly empty) comma-separated conjunction of clauses; empty matches any
version. -/
def specifierHolds (spec : List Char) (v : List Nat) : Bool :=
  (splitOn ',' spec).all (fun cl => specClauseHolds cl v)

/-- `FormularyProvider.is_satisfied_by`. -/
def isSatisfiedBy (requirement : Dependency) (candidate : Package) : Bool :=
  decide (requirement.name = candidate.name) &&
    specifierHolds requirement.specifier (parseVersion candidate.version)

/-- Stable descending insertion used to embed Python's
`sorted(candidates, key=parsed_version, reverse=True)`: an element moves
before the first strictly smaller key, so equal keys keep their original
order. -/
def insertDesc (c : Package) : List Package → List Package
  | [] => [c]
  | d :: rest =>
      if verLt (parseVersion d.version) (parseVersion c.version)
      then c :: d :: rest else d :: insertDesc c rest

/-- `sorted(valid_candidates, key=parsed_version, reverse=True)`. -/
def sortDesc (l : List Package) : List Package :=
  l.foldl (fun acc c => insertDesc c acc) []

/-- `FormularyProvider.find_matches`, with the registry's version list for
the identifier and the requirements recorded against the identifier as
explicit inputs. -/
def findMatches (versions : List (List Char)) (identifier : List Char)
    (idReqs : List Dependency) : List Package :=
  let candidates := versions.map (fun v => Package.mk identifier v [])
  let valid := candidates.filter (fun c => idReqs.all (fun r => isSatisfiedBy r c))
  sortDesc valid

theorem insertDesc_perm (c : Package) :
    ∀ l : List Package, (insertDesc c l).Perm (c :: l) := by
  intro l
  induction l with
  | nil => exact List.Perm.refl _
  | cons d rest ih =>
      rw [insertDesc]
      split
      · exact List.Perm.refl _
      · exact List.Perm.trans (List.Perm.cons d ih) (List.Perm.swap c d rest)

theorem sortDesc_perm (l : List Package) : (sortDesc l).Perm l := by
  have haux : ∀ (l acc : List Package),
      (l.foldl (fun acc c => insertDesc c acc) acc).Perm (acc ++ l) := by
    intro l
    induction l with
    | nil => intro acc; simp
    | cons c rest ih =>
        intro acc
        rw [List.foldl_cons]
        refine List.Perm.trans (ih (insertDesc c acc)) ?_
        refine List.Perm.trans (List.Perm.append_right rest (insertDesc_perm c acc)) ?_
        exact List.perm_middle.symm
  simpa using haux l []

theorem insertDesc_pairwise (c : Package) (l : List Package)
    (hp : l.Pairwise (fun a b =>
      verLt (parseVersion a.version) (parseVersion b.version) = false)) :
    (insertDesc c l).Pairwise (fun a b =>
      verLt (parseVersion a.version) (parseVersion b.version) = false) := by
  induction l with
  | nil => simp [insertDesc]
  | cons d rest ih =>
      rw [List.pairwise_cons] at hp
      obtain ⟨hd, hrest⟩ := hp
      rw [insertDesc]
      split
      · next hlt =>
          rw [List.pairwise_cons]
          refine ⟨?_, List.pairwise_cons.mpr ⟨hd, hrest⟩⟩
          intro x hx
          rcases List.mem_cons.mp hx with rfl | hxr
          · exact verLt_asymm _ _ hlt
          · by_cases hcx : verLt (parseVersion c.version) (parseVersion x.version) = true
            · have hdx := verLt_strict_trans _ _ _ hlt hcx
              rw [hd x hxr] at hdx
              cases hdx
            · simpa using hcx
      · next hge =>
          rw [List.pairwise_cons]
          refine ⟨?_, ih hrest⟩
          intro x hx
          have hx2 : x ∈ c :: rest := (insertDesc_perm c rest).mem_iff.mp hx
          rcases List.mem_cons.mp hx2 with rfl | hxr
          · simpa using hge
          · exact hd x hxr

theorem sortDesc_pairwise (l : List Package) :
    (sortDesc l).Pairwise (fun a b =>
      verLt (parseVersion a.version) (parseVersion b.version) = false) := by
  have haux : ∀ (l acc : List Package),
      acc.Pairwise (fun a b =>
        verLt (parseVersion a.version) (parseVersion b.version) = false) →
      (l.foldl (fun acc c => insertDesc c acc) acc).Pairwise (fun a b =>
        verLt (parseVersion a.version) (parseVersion b.version) = false) := by
    intro l
    induction l with
    | nil => intro acc h; exact h
    | cons c rest ih =>
        intro acc h
        rw [List.foldl_cons]
        exact ih _ (insertDesc_pairwise c acc h)
  exact haux l [] List.Pairwise.nil

/-- One registry index entry: a (name, version) candidate and its declared
requirement strings. -/
structure RegPackage where
  name : List Char
  version : List Char
  dependencies : List (List Char)
  deriving DecidableEq, Repr

/-- The registry capability, as a finite index. -/
abbrev Registry := List RegPackage

/-- `get_versions(name)`. -/
def regVersions (reg : Registry) (name : List Char) : List (List Char) :=
  (reg.filter (fun p => p.name = name)).map (fun p => p.version)

/-- `get_package_metadata(name, version)["dependencies"]`. -/
def regDeps (reg : Registry) (name version : List Char) : List (List Char) :=
  match reg.find? (fun p => p.name = name ∧ p.version = version) with
  | some p => p.dependencies
  | none => []

/-- Requirement-string parsing (`Package.parsed_dependencies` in
`domain/models.py` and the equivalent inline parse in `install.py`): the
regex `^([A-Za-z0-9_-]+)(.*)$` splits name and specifier, the specifier is
stripped; an unmatchable string becomes a name with empty specifier. -/
def parseRequirement (d : List Char) : Dependency :=
  let nm := d.takeWhile reqNameChar
  if nm = [] then Dependency.mk d []
  else Dependency.mk nm (stripSpaces (d.drop nm.length))

/-- Requirements recorded against one identifier. -/
def reqsFor (reqs : List Dependency) (n : List Char) : List Dependency :=
  reqs.filter (fun r => r.name = n)

/-- Modelled from the spec §4.1 step 2: identifiers still to resolve, in
insertion order of their requirements. -/
def unresolvedNames (asg : List (List Char × List Char))
    (reqs : List Dependency) : List (List Char) :=
  ((reqs.map (fun r => r.name)).foldl addIfAbsent []).filter
    (fun n => (dictGet asg n).isNone)

/-- Modelled from the spec §4.1 step 2: preference score = current
candidate-set size, fewest first, ties broken by insertion order. -/
def pickIdentifier (reg : Registry) (asg : List (List Char × List Char))
    (reqs : List Dependency) : Option (List Char) :=
  (unresolvedNames asg reqs).foldl
    (fun best n =>
      match best with
      | none => some n
      | some b =>
          if (findMatches (regVersions reg n) n (reqsFor reqs n)).length <
              (findMatches (regVersions reg b) b (reqsFor reqs b)).length
          then some n else best)
    none

mutual
/-- Modelled from the spec §4.1: the backtracking resolution loop of the
external `resolvelib` library.  Choose the preferred unresolved identifier,
enumerate its compatible candidates newest-first via `find_matches`, assign
provisionally, add the chosen candidate's parsed dependencies as new
requirements, and backtrack to the next candidate on failure; when an
identifier has no viable candidate the failure carries the requirements
recorded against it (spec §4.1 step 5).  Fuel-indexed; every recursive call
decrements it, and the concrete claims supply ample fuel. -/
def specResolveF : Nat → Registry → List (List Char × List Char) →
    List Dependency → Except (List Dependency) (List (List Char × List Char))
  | 0, _, asg, _ => .ok asg
  | fuel + 1, reg, asg, reqs =>
      match pickIdentifier reg asg reqs with
      | none => .ok asg
      | some ident =>
          tryCandidatesF fuel reg asg reqs ident
            (findMatches (regVersions reg ident) ident (reqsFor reqs ident))

/-- Modelled from the spec §4.1 step 4: try each candidate in order,
backtracking on failure; exhaustion fails with the identifier's
requirements. -/
def tryCandidatesF : Nat → Registry → List (List Char × List Char) →
    List Dependency → List Char → List Package →
    Except (List Dependency) (List (List Char × List Char))
  | 0, _, _, reqs, ident, _ => .error (reqsFor reqs ident)
  | _ + 1, _, _, reqs, ident, [] => .error (reqsFor reqs ident)
  | fuel + 1, reg, asg, reqs, ident, c :: cs =>
      match specResolveF fuel reg (asg ++ [(ident, c.version)])
          (reqs ++ (regDeps reg ident c.version).map parseRequirement) with
      | .ok r => .ok r
      | .error _ => tryCandidatesF fuel reg asg reqs ident cs
end

/-- The exception kinds `Resolver.resolve` can surface.  `valueError` is the
`ValueError` the source raises.  `unsatisfiableRequirements` is the
structured error type the specification claims (`UnsatisfiableRequirements`
carrying (name, specifier) pairs); no such class exists anywhere in the
repository — the constructor exists only so that claim can be stated and
refuted. -/
inductive ResolveErr where
  | valueError (msg : List Char)
  | unsatisfiableRequirements (pairs : List (List Char × List Char))
  deriving DecidableEq, Repr

/-- `f"{cause.requirement.name} ({cause.requirement.specifier})"`. -/
def formatReq (r : Dependency) : List Char :=
  r.name ++ [ ' ', '(' ] ++ r.specifier ++ [ ')' ]

/-- `", ".join(failed_reqs)`. -/
def joinComma : List (List Char) → List Char
  | [] => []
  | [x] => x
  | x :: rest => x ++ [ ',', ' ' ] ++ joinComma rest

/-- The fixed prefix of the source's `ValueError` message. -/
def couldNotMsg : List Char :=
  "Could not find a version that satisfies the requirements: ".toList

/-- `Resolver.resolve`: run resolution and, on `ResolutionImpossible`, raise
a plain `ValueError` whose message embeds the failing requirements as text —
the source has no structured error payload. -/
def resolverResolve (fuel : Nat) (reg : Registry) (requirements : List Dependency) :
    Except ResolveErr (List (List Char × List Char)) :=
  match specResolveF fuel reg [] requirements with
  | .ok asg => .ok asg
  | .error causes =>
      .error (.valueError (couldNotMsg ++ joinComma (causes.map formatReq)))

/-- Whether a resolve outcome is the structured error the claim asserts. -/
def isStructuredUnsat (r : Except ResolveErr (List (List Char × List Char))) :
    Bool :=
  match r with
  | .error (.unsatisfiableRequirements _) => true
  | _ => false

/-- The spec's resolver example registry: `pkg-a` in versions 1.0.0 and
2.0.0 without dependencies, `pkg-b` 1.0.0 requiring `pkg-a>=1.0.0`. -/
def exampleRegistry : Registry :=
  [RegPackage.mk ("pkg-a".toList) ("1.0.0".toList) [],
   RegPackage.mk ("pkg-a".toList) ("2.0.0".toList) [],
   RegPackage.mk ("pkg-b".toList) ("1.0.0".toList) ["pkg-a>=1.0.0".toList]]

/-- C7: `find_matches` returns exactly the registry versions of the
identifier that satisfy every requirement recorded against it (as a
permutation of the filtered candidate list), ordered by semantic-version
precedence descending; resolving the root requirement `pkg-b` against the
example registry assigns `pkg-b` 1.0.0 and `pkg-a` 2.0.0, preferring the
newest compatible `pkg-a`. -/
theorem find_matches_exact_sorted :
    (∀ (versions : List (List Char)) (identifier : List Char)
        (idReqs : List Dependency),
      (findMatches versions identifier idReqs).Perm
          ((versions.map (fun v => Package.mk identifier v [])).filter
            (fun c => idReqs.all (fun r => isSatisfiedBy r c))) ∧
        (findMatches versions identifier idReqs).Pairwise
          (fun a b =>
            verLt (parseVersion a.version) (parseVersion b.version) = false)) ∧
      specResolveF 32 exampleRegistry []
          [Dependency.mk ("pkg-b".toList) []] =
        .ok [("pkg-b".toList, "1.0.0".toList),
             ("pkg-a".toList, "2.0.0".toList)] := by
  refine ⟨fun versions identifier idReqs => ⟨?_, ?_⟩, rfl⟩
  · exact sortDesc_perm _
  · exact sortDesc_pairwise _

/-- C9 counterexample: requiring the nonexistent `nosuchpkg` makes
`Resolver.resolve` raise a plain `ValueError` whose message embeds
`nosuchpkg ()` as text; the outcome is not an `UnsatisfiableRequirements`
error with a structured (name, specifier) payload, because no such error
type exists in the code. -/
theorem resolve_error_is_message_text :
    resolverResolve 32 exampleRegistry [Dependency.mk ("nosuchpkg".toList) []] =
        .error (.valueError (couldNotMsg ++ "nosuchpkg ()".toList)) ∧
      isStructuredUnsat
        (resolverResolve 32 exampleRegistry
          [Dependency.mk ("nosuchpkg".toList) []]) = false := by
  exact ⟨rfl, rfl⟩

/-- C9 (amended): whenever resolution fails, `Resolver.resolve` raises a
`ValueError` whose message is the fixed prefix followed by each failing
requirement rendered as `name (specifier)` and comma-joined — the
requirements are exposed only as message text, never as a structured
payload; requiring a nonexistent package yields that `ValueError` naming the
package inside the message. -/
theorem resolve_error_message_lists_requirements :
    (∀ (fuel : Nat) (reg : Registry) (reqs : List Dependency)
        (causes : List Dependency),
      specResolveF fuel reg [] reqs = .error causes →
      resolverResolve fuel reg reqs =
        .error (.valueError (couldNotMsg ++ joinComma (causes.map formatReq)))) ∧
      resolverResolve 32 exampleRegistry
          [Dependency.mk ("nosuchpkg".toList) []] =
        .error (.valueError (couldNotMsg ++ "nosuchpkg ()".toList)) := by
  refine ⟨?_, rfl⟩
  intro fuel reg reqs causes h
  rw [resolverResolve, h]

/-- Witness for `resolve_error_message_lists_requirements` at the
nonexistent-package input. -/
theorem resolve_error_message_lists_requirements_witness :
    resolverResolve 32 exampleRegistry
        [Dependency.mk ("nosuchpkg".toList) []] =
      .error (.valueError (couldNotMsg ++ joinComma
        ([Dependency.mk ("nosuchpkg".toList) []].map formatReq))) :=
  resolve_error_message_lists_requirements.1 32 exampleRegistry
    [Dependency.mk ("nosuchpkg".toList) []]
    [Dependency.mk ("nosuchpkg".toList) []] rfl

end Formulary
